import Mathlib

/-!
Verification of the crossword solving engine: a shallow embedding of the
puzzle document model (grid.js buildWords), the grid/navigation engine
(grid.js), the solving engine (game.js) and the persistence layer
(storage.js), together with proofs of the specified properties.

Conventions of the embedding:
* JS arrays become lists, indexed with the optional getElem? lookup so
  that out-of-bounds access yields none (JS: undefined).
* JS objects used as string-keyed maps become association lists whose
  set operation replaces in place or appends, matching JS insertion-order
  iteration semantics.
* DOM side effects that carry no game state (CSS classes, focus, the
  highlight marks, innerHTML) are omitted; the observable callbacks
  (onTimerStart, onWordCorrect, onComplete) are recorded in an event log.
* Timestamps (Date.now()) are threaded as an explicit parameter.
-/

namespace Crosswords

/-- Word direction: the two clue directions of the puzzle. -/
inductive Dir where
  | across
  | down
deriving DecidableEq

/-- Swap across/down, as in the various occurrences of
    activeDirection === 'across' ? 'down' : 'across' in grid.js. -/
def flipDir (d : Dir) : Dir :=
  match d with
  | .across => .down
  | .down => .across

/-- One value of the raw puzzle grid: a block marker, a clue-number label,
    or the blank-but-playable marker. -/
inductive PVal where
  | black
  | num (n : Nat)
  | blank
deriving DecidableEq

/-- A derived word (grid.js: words entries pushed by buildWords). -/
structure Word where
  id : Nat
  number : Nat
  direction : Dir
  cells : List (Nat × Nat)
  clue : String
deriving DecidableEq

/-- One entry of the cellToWords table (grid.js): the across and down word
    index a cell belongs to, when any. -/
structure CW where
  across : Option Nat
  down : Option Nat
deriving DecidableEq

/-- The immutable puzzle definition read by createGrid: dimensions, the raw
    grid, and the two ordered clue lists (clue number, clue text). -/
structure PuzzleData where
  height : Nat
  width : Nat
  puzzle : List (List PVal)
  cluesAcross : List (Nat × String)
  cluesDown : List (Nat × String)
deriving DecidableEq

/-- puzzle[r][c] with JS out-of-bounds semantics. -/
def pvalAt (p : PuzzleData) (r c : Nat) : Option PVal :=
  (p.puzzle[r]?).bind fun row => row[c]?

/-- grid.js isPlayable: in bounds and not a block marker. -/
def isPlayable (p : PuzzleData) (r c : Nat) : Bool :=
  decide (r < p.height) && decide (c < p.width) &&
    decide (pvalAt p r c ≠ some PVal.black)

/-- grid.js numberToPos: the row-major scan stores every labeled position
    under its number, later assignments overwriting earlier ones, so a
    lookup returns the last labeled position in row-major order. -/
def numberToPos (p : PuzzleData) (num : Nat) : Option (Nat × Nat) :=
  (List.range p.height).foldl
    (fun acc r =>
      (List.range p.width).foldl
        (fun acc2 c =>
          if pvalAt p r c = some (PVal.num num) then some (r, c) else acc2)
        acc)
    none

/-- The rightward walk of buildWords, with an explicit iteration bound:
    the loop advances col and stops no later than the grid edge, so any
    fuel covering the remaining width runs it to its natural end. -/
def acrossRunFrom (p : PuzzleData) (row : Nat) : Nat → Nat → List (Nat × Nat)
  | _, 0 => []
  | col, fuel + 1 =>
    if isPlayable p row col then (row, col) :: acrossRunFrom p row (col + 1) fuel
    else []

/-- The rightward walk of buildWords for an ACROSS clue: collect cells
    while they stay playable. -/
def acrossRun (p : PuzzleData) (row col : Nat) : List (Nat × Nat) :=
  acrossRunFrom p row col (p.width - col)

/-- The downward walk, with an explicit iteration bound. -/
def downRunFrom (p : PuzzleData) (col : Nat) : Nat → Nat → List (Nat × Nat)
  | _, 0 => []
  | row, fuel + 1 =>
    if isPlayable p row col then (row, col) :: downRunFrom p col (row + 1) fuel
    else []

/-- The downward walk of buildWords for a DOWN clue. -/
def downRun (p : PuzzleData) (row col : Nat) : List (Nat × Nat) :=
  downRunFrom p col row (p.height - row)

/-- The walk of buildWords in a given direction. -/
def runFor (p : PuzzleData) (d : Dir) (r c : Nat) : List (Nat × Nat) :=
  match d with
  | .across => acrossRun p r c
  | .down => downRun p r c

/-- One clue-list loop of buildWords: clues whose number labels no cell are
    skipped; each accepted clue pushes a word whose id is the index at push
    time (words.length). -/
def buildDir (p : PuzzleData) (d : Dir) (cs : List (Nat × String))
    (acc : List Word) : List Word :=
  cs.foldl
    (fun ws nc =>
      match numberToPos p nc.1 with
      | none => ws
      | some rc =>
        ws ++ [{ id := ws.length, number := nc.1, direction := d,
                 cells := runFor p d rc.1 rc.2, clue := nc.2 }])
    acc

/-- grid.js buildWords: the ACROSS block is processed fully before the DOWN
    block. -/
def buildWords (p : PuzzleData) : List Word :=
  buildDir p .down p.cluesDown (buildDir p .across p.cluesAcross [])

/-- The per-word write of the cellToWords fill loop: when (r, c) is one of
    the word's cells, store the word id under the word's direction. -/
def ctwWrite (r c : Nat) (cw : CW) (w : Word) : CW :=
  if (r, c) ∈ w.cells then
    match w.direction with
    | .across => { cw with across := some w.id }
    | .down => { cw with down := some w.id }
  else cw

/-- The cellToWords entry at (r, c) after buildWords finished. The source
    fills a 2D array as it pushes each word (writing the word id at every
    cell of the word, in push order); since those writes never influence
    word construction, the final entry equals this fold over the finished
    word list in the same order, later writes overwriting earlier ones. -/
def cellToWordsAt (p : PuzzleData) (r c : Nat) : CW :=
  (buildWords p).foldl (ctwWrite r c) { across := none, down := none }

/-- One rendered cell (grid.js cells entries): the block flag, the text of
    the input element (empty when absent), and its readOnly lock flag.
    Black cells carry no input element; the operations below guard on
    isBlack exactly where the source guards on a missing input. -/
structure Cell where
  isBlack : Bool
  value : String
  readOnly : Bool
deriving DecidableEq

/-- The grid engine state returned by createGrid, restricted to game state:
    dimensions, the cell table, the derived words and cellToWords tables,
    the solution grid, and the active cursor. activeCell none stands for
    the JS sentinel activeRow = activeCol = -1. -/
structure Grid where
  rows : Nat
  cols : Nat
  cells : List (List Cell)
  words : List Word
  cellToWords : List (List CW)
  solution : List (List String)
  activeCell : Option (Nat × Nat)
  activeDirection : Dir
deriving DecidableEq

/-- cells[row]?.[col] -/
def getCellAt (g : Grid) (r c : Nat) : Option Cell :=
  (g.cells[r]?).bind fun row => row[c]?

/-- grid.js getLetter: cells[row]?.[col]?.input?.value or the empty string;
    a missing cell, a black cell (no input) and an empty input all yield
    the empty string. -/
def getLetter (g : Grid) (r c : Nat) : String :=
  match getCellAt g r c with
  | none => ""
  | some cell => if cell.isBlack then "" else cell.value

/-- grid.js setLetter: a no-op on a missing or black cell, otherwise writes
    input.value. The lock flag is not consulted. -/
def setLetter (g : Grid) (r c : Nat) (letter : String) : Grid :=
  match g.cells[r]? with
  | none => g
  | some rowCells =>
    match rowCells[c]? with
    | none => g
    | some cell =>
      if cell.isBlack then g
      else { g with cells := g.cells.set r (rowCells.set c { cell with value := letter }) }

/-- grid.js lockCell: sets input.readOnly when the cell has an input
    element (black cells have none). -/
def lockCell (g : Grid) (r c : Nat) : Grid :=
  match g.cells[r]? with
  | none => g
  | some rowCells =>
    match rowCells[c]? with
    | none => g
    | some cell =>
      if cell.isBlack then g
      else { g with cells := g.cells.set r (rowCells.set c { cell with readOnly := true }) }

/-- cellToWords[row]?.[col] -/
def ctwAt (g : Grid) (r c : Nat) : Option CW :=
  (g.cellToWords[r]?).bind fun row => row[c]?

/-- cw[direction] -/
def cwDir (cw : CW) (d : Dir) : Option Nat :=
  match d with
  | .across => cw.across
  | .down => cw.down

/-- grid.js setActiveCell restricted to cursor state: optionally take the
    requested direction, flip once when the cell does not support the
    current direction, then record the active coordinate. Highlighting,
    focus and the selection callback carry no game state and are omitted. -/
def setActiveCell (g : Grid) (r c : Nat) (dir : Option Dir) : Grid :=
  let g1 := match dir with
    | some d => { g with activeDirection := d }
    | none => g
  let g2 := match ctwAt g1 r c with
    | some cw =>
      if cwDir cw g1.activeDirection = none then
        { g1 with activeDirection := flipDir g1.activeDirection }
      else g1
    | none => g1
  { g2 with activeCell := some (r, c) }

/-- grid.js toggleDirection: switch only when the active cell has a word in
    the other direction; with no active cell the table lookup misses and
    nothing happens. -/
def toggleDirection (g : Grid) : Grid :=
  let other := flipDir g.activeDirection
  match g.activeCell with
  | none => g
  | some rc =>
    match ctwAt g rc.1 rc.2 with
    | none => g
    | some cw =>
      if (cwDir cw other).isSome then
        setActiveCell { g with activeDirection := other } rc.1 rc.2 none
      else g

/-- grid.js getActiveWord. -/
def getActiveWord (g : Grid) : Option Word :=
  match g.activeCell with
  | none => none
  | some rc =>
    match ctwAt g rc.1 rc.2 with
    | none => none
    | some cw =>
      match cwDir cw g.activeDirection with
      | none => none
      | some idx => g.words[idx]?

/-- grid.js moveToNextCell; JS findIndex yields -1 on a miss, so the index
    arithmetic is done in Int as in the source. -/
def moveToNextCell (g : Grid) : Grid :=
  match getActiveWord g, g.activeCell with
  | some word, some ac =>
    let idx : Int := match word.cells.findIdx? (fun rc => rc = ac) with
      | some i => (i : Int)
      | none => -1
    if idx < (word.cells.length : Int) - 1 then
      match word.cells[(idx + 1).toNat]? with
      | some next => setActiveCell g next.1 next.2 none
      | none => g
    else g
  | _, _ => g

/-- grid.js moveToPrevCell. -/
def moveToPrevCell (g : Grid) : Grid :=
  match getActiveWord g, g.activeCell with
  | some word, some ac =>
    let idx : Int := match word.cells.findIdx? (fun rc => rc = ac) with
      | some i => (i : Int)
      | none => -1
    if idx > 0 then
      match word.cells[(idx - 1).toNat]? with
      | some prev => setActiveCell g prev.1 prev.2 none
      | none => g
    else g
  | _, _ => g

/-- game.js solving state (the persisted SolvingState). gridMap is the
    state.grid letter map, revealed the set of hint-revealed coordinates
    in insertion order. -/
structure Solving where
  gridMap : List ((Nat × Nat) × String)
  revealed : List (Nat × Nat)
  correctWords : List Nat
  startTime : Option Nat
  elapsed : Nat
  completed : Bool
  completedAt : Option Nat
  hintsUsed : Nat
deriving DecidableEq

/-- The observable callback log: how often onTimerStart fired, the
    onWordCorrect invocations (word id, animate flag), and how often the
    completion block ran (saveProgress + updateStatsOnComplete +
    onComplete, which the source performs together). -/
structure Events where
  timerStarts : Nat
  wordCorrects : List (Nat × Bool)
  completions : Nat
deriving DecidableEq

/-- The full solving session: the grid engine, the solving state and the
    callback log. -/
structure Sys where
  grid : Grid
  st : Solving
  ev : Events
deriving DecidableEq

/-- JS object write state.grid[key] = v: replace in place or append. -/
def gmSet (m : List ((Nat × Nat) × String)) (k : Nat × Nat) (v : String) :
    List ((Nat × Nat) × String) :=
  if m.any (fun e => decide (e.1 = k)) then
    m.map (fun e => if e.1 = k then (k, v) else e)
  else m ++ [(k, v)]

/-- JS delete state.grid[key]. -/
def gmDel (m : List ((Nat × Nat) × String)) (k : Nat × Nat) :
    List ((Nat × Nat) × String) :=
  m.filter (fun e => decide (e.1 ≠ k))

/-- JS object write state.revealed[key] = true: re-setting a present key
    changes nothing. -/
def rvAdd (m : List (Nat × Nat)) (k : Nat × Nat) : List (Nat × Nat) :=
  if k ∈ m then m else m ++ [k]

/-- solution[row][col] with a missing entry as none (JS: undefined, which
    compares unequal to every letter). -/
def solutionAt (g : Grid) (r c : Nat) : Option String :=
  (g.solution[r]?).bind fun row => row[c]?

/-- game.js markWordCorrect: lock every cell of the word and fire
    onWordCorrect. The reachable calls always pass an existing word index;
    on a missing one the source would fail, the model keeps the state.
    The CSS class write is presentational and omitted. -/
def markWordCorrect (s : Sys) (wordIdx : Nat) (animate : Bool) : Sys :=
  match s.grid.words[wordIdx]? with
  | none => s
  | some word =>
    let g := word.cells.foldl (fun g2 rc => lockCell g2 rc.1 rc.2) s.grid
    { s with grid := g,
             ev := { s.ev with wordCorrects := s.ev.wordCorrects ++ [(wordIdx, animate)] } }

/-- game.js checkCompletion: idempotent via the completed flag; when the
    validated count reaches the word count it marks completion, records the
    completion time and runs the completion block (counted in
    ev.completions). -/
def checkCompletion (s : Sys) (now : Nat) : Sys :=
  if s.st.completed then s
  else if s.st.correctWords.length = s.grid.words.length then
    { s with
      st := { s.st with completed := true, completedAt := some now },
      ev := { s.ev with completions := s.ev.completions + 1 } }
  else s

/-- game.js checkWord: skip words already validated; evaluate only fully
    filled words; on an exact match against the solution append the word to
    correctWords, lock and notify, then check completion. -/
def checkWord (s : Sys) (now : Nat) (wordIdx : Nat) : Sys :=
  if wordIdx ∈ s.st.correctWords then s
  else
    match s.grid.words[wordIdx]? with
    | none => s
    | some word =>
      if word.cells.all (fun rc => decide (getLetter s.grid rc.1 rc.2 ≠ "")) then
        if word.cells.all (fun rc =>
            decide (some (getLetter s.grid rc.1 rc.2) = solutionAt s.grid rc.1 rc.2)) then
          let s1 : Sys := { s with st := { s.st with correctWords := s.st.correctWords ++ [wordIdx] } }
          let s2 := markWordCorrect s1 wordIdx true
          checkCompletion s2 now
        else s
      else s

/-- The shared tail of onLetterInput and revealLetter: run checkWord for
    the across then the down word of the cell, when present. -/
def checkCellWords (s : Sys) (now : Nat) (r c : Nat) : Sys :=
  match ctwAt s.grid r c with
  | none => s
  | some cw =>
    let s1 := match cw.across with
      | some i => checkWord s now i
      | none => s
    match cw.down with
    | some i => checkWord s1 now i
    | none => s1

/-- The guard if (!state.startTime): JS truthiness, so a null start time
    and a stored numeric 0 both count as unset. -/
def startTimeFalsy (t : Option Nat) : Bool :=
  match t with
  | none => true
  | some n => decide (n = 0)

/-- game.js onLetterInput: start the clock on the first call (whatever the
    letter), update the letter map (an empty letter deletes the entry),
    then validate the words through the cell. The debounced save is a
    persistence-timing side effect and is omitted. -/
def onLetterInput (s : Sys) (now : Nat) (r c : Nat) (letter : String) : Sys :=
  let s1 :=
    if startTimeFalsy s.st.startTime then
      { s with st := { s.st with startTime := some now },
               ev := { s.ev with timerStarts := s.ev.timerStarts + 1 } }
    else s
  let s2 :=
    if letter ≠ "" then
      { s1 with st := { s1.st with gridMap := gmSet s1.st.gridMap (r, c) letter } }
    else
      { s1 with st := { s1.st with gridMap := gmDel s1.st.gridMap (r, c) } }
  checkCellWords s2 now r c

/-- game.js revealLetter: acts on the active cell; returns early on no
    active cell, a missing or black cell, a locked input, or a missing,
    empty or block solution letter; otherwise writes the solution letter,
    marks the cell revealed and increments hintsUsed unconditionally, then
    re-validates. -/
def revealLetter (s : Sys) (now : Nat) : Sys :=
  match s.grid.activeCell with
  | none => s
  | some rc =>
    match getCellAt s.grid rc.1 rc.2 with
    | none => s
    | some cell =>
      if cell.isBlack then s
      else if cell.readOnly then s
      else
        match solutionAt s.grid rc.1 rc.2 with
        | none => s
        | some letter =>
          if letter = "" ∨ letter = "#" then s
          else
            let g := setLetter s.grid rc.1 rc.2 letter
            let st1 : Solving :=
              { s.st with
                gridMap := gmSet s.st.gridMap rc letter,
                revealed := rvAdd s.st.revealed rc,
                hintsUsed := s.st.hintsUsed + 1 }
            let s1 : Sys := { s with grid := g, st := st1 }
            checkCellWords s1 now rc.1 rc.2

/-- The loop body of game.js revealWord: skip a locked input (a black or
    missing cell has no input, so its readOnly access is falsy and the cell
    is not skipped); write the solution letter; increment hintsUsed only
    for a cell not yet marked revealed. -/
def revealWordCell (s : Sys) (rc : Nat × Nat) : Sys :=
  let skip : Bool := match getCellAt s.grid rc.1 rc.2 with
    | some cell => !cell.isBlack && cell.readOnly
    | none => false
  if skip then s
  else
    let letter := (solutionAt s.grid rc.1 rc.2).getD ""
    let g := setLetter s.grid rc.1 rc.2 letter
    let st1 : Solving := { s.st with gridMap := gmSet s.st.gridMap rc letter }
    let st2 := if rc ∈ st1.revealed then st1
      else { st1 with revealed := st1.revealed ++ [rc], hintsUsed := st1.hintsUsed + 1 }
    { s with grid := g, st := st2 }

/-- game.js revealWord: no-op without an active word or on an already
    validated one; otherwise reveal each unlocked cell and re-validate the
    word. -/
def revealWord (s : Sys) (now : Nat) : Sys :=
  match getActiveWord s.grid with
  | none => s
  | some word =>
    if word.id ∈ s.st.correctWords then s
    else
      let s1 := word.cells.foldl revealWordCell s
      checkWord s1 now word.id

/-- The loop body of game.js revealAll: skip black or locked cells; the
    in-range loop always finds a cell, a missing entry is kept a no-op. -/
def revealAllCell (s : Sys) (r c : Nat) : Sys :=
  match getCellAt s.grid r c with
  | none => s
  | some cell =>
    if cell.isBlack || cell.readOnly then s
    else
      let letter := (solutionAt s.grid r c).getD ""
      let g := setLetter s.grid r c letter
      let st1 : Solving := { s.st with gridMap := gmSet s.st.gridMap (r, c) letter }
      let st2 := if (r, c) ∈ st1.revealed then st1
        else { st1 with revealed := st1.revealed ++ [(r, c)], hintsUsed := st1.hintsUsed + 1 }
      { s with grid := g, st := st2 }

/-- game.js revealAll: reveal every unlocked playable cell in row-major
    order, then run checkWord over every word not yet validated. -/
def revealAll (s : Sys) (now : Nat) : Sys :=
  let rows := s.grid.rows
  let cols := s.grid.cols
  let s1 := (List.range rows).foldl
    (fun acc r => (List.range cols).foldl (fun acc2 c => revealAllCell acc2 r c) acc) s
  (List.range s1.grid.words.length).foldl
    (fun acc i => if i ∈ acc.st.correctWords then acc else checkWord acc now i) s1

/-- game.js loadSaved: replace the solving state by the saved one (saved
    states persist every field, so the object spread is a wholesale
    replacement), replay the letters into the grid, then replay
    markWordCorrect with animate = false for each saved correct word.
    checkCompletion is not invoked. The revealed CSS classes and the
    onTimerRestore callback are presentational and omitted. -/
def loadSaved (s : Sys) (saved : Option Solving) : Sys :=
  match saved with
  | none => s
  | some sv =>
    let s1 : Sys := { s with st := sv }
    let s2 : Sys := { s1 with
      grid := sv.gridMap.foldl (fun g kv => setLetter g kv.1.1 kv.1.2 kv.2) s1.grid }
    sv.correctWords.foldl (fun acc i => markWordCorrect acc i false) s2

/-- A content-bearing key event as interpreted by grid.js handleKeyDown.
    For a letter key the handler derives the normalized uppercase letter
    (NFD-decompose, strip combining diacritics, uppercase); Unicode
    normalization itself is outside the model, so the event carries the
    normalized letter. Pure navigation keys (arrows, Tab, Enter, Space)
    only move the cursor and are represented by the navigate event of Ev. -/
inductive Key where
  | letter (l : String)
  | backspace
  | delete
deriving DecidableEq

/-- grid.js handleKeyDown on a playable cell (handlers are attached only to
    non-black inputs), for the letter, Backspace and Delete branches; the
    onLetterInput callback is wired to game.onLetterInput (app.js). The
    lock flag is never consulted on this path. -/
def handleKeyDown (s : Sys) (now : Nat) (r c : Nat) (k : Key) : Sys :=
  match k with
  | .letter l =>
    let s1 := { s with grid := setLetter s.grid r c l }
    let s2 := onLetterInput s1 now r c l
    { s2 with grid := moveToNextCell s2.grid }
  | .backspace =>
    if getLetter s.grid r c ≠ "" then
      let s1 := { s with grid := setLetter s.grid r c "" }
      onLetterInput s1 now r c ""
    else
      let s1 := { s with grid := moveToPrevCell s.grid }
      match s1.grid.activeCell with
      | some rc =>
        let s2 := { s1 with grid := setLetter s1.grid rc.1 rc.2 "" }
        onLetterInput s2 now rc.1 rc.2 ""
      | none => s1
  | .delete =>
    let s1 := { s with grid := setLetter s.grid r c "" }
    onLetterInput s1 now r c ""

/-- The empty solving state createGame starts from. -/
def initSolving : Solving :=
  { gridMap := [], revealed := [], correctWords := [], startTime := none,
    elapsed := 0, completed := false, completedAt := none, hintsUsed := 0 }

/-- The callback log before anything fired. -/
def initEvents : Events :=
  { timerStarts := 0, wordCorrects := [], completions := 0 }

/-- A fresh session over a grid. -/
def initSys (g : Grid) : Sys :=
  { grid := g, st := initSolving, ev := initEvents }

/-- One user-driven event of a solving session: a content key on a cell, a
    cursor move (cell click/focus or a navigation key), or one of the three
    reveal buttons. -/
inductive Ev where
  | key (r c : Nat) (k : Key)
  | navigate (r c : Nat) (d : Option Dir)
  | revealL
  | revealW
  | revealA
deriving DecidableEq

/-- Interpret one timestamped event. -/
def step (s : Sys) (te : Nat × Ev) : Sys :=
  match te.2 with
  | .key r c k => handleKeyDown s te.1 r c k
  | .navigate r c d => { s with grid := setActiveCell s.grid r c d }
  | .revealL => revealLetter s te.1
  | .revealW => revealWord s te.1
  | .revealA => revealAll s te.1

/-- Interpret a whole event sequence. -/
def run (s : Sys) (es : List (Nat × Ev)) : Sys :=
  es.foldl step s

/-- storage.js streak record. -/
structure Streak where
  current : Nat
  best : Nat
deriving DecidableEq

/-- storage.js history entry. -/
structure HistEntry where
  date : String
  level : String
  time : Nat
  hints : Nat
  noHints : Bool
deriving DecidableEq

/-- storage.js statistics record. Dates are modeled by their day number
    (days since the epoch): the source stores date-only ISO strings, which
    parse to UTC midnights, so the millisecond difference divided by
    86400000 is an exact whole number of days and Math.round is the
    identity on it. -/
structure GameStats where
  totalCompleted : Nat
  totalTime : Nat
  bestTime : List (String × Nat)
  streak : Streak
  history : List HistEntry
  lastPlayed : Option Int
deriving DecidableEq

/-- bestTime[level] -/
def btGet (m : List (String × Nat)) (k : String) : Option Nat :=
  (m.find? (fun e => decide (e.1 = k))).map (fun e => e.2)

/-- bestTime[level] = v -/
def btSet (m : List (String × Nat)) (k : String) (v : Nat) : List (String × Nat) :=
  if m.any (fun e => decide (e.1 = k)) then
    m.map (fun e => if e.1 = k then (k, v) else e)
  else m ++ [(k, v)]

/-- storage.js loadStats default record. -/
def defaultStats : GameStats :=
  { totalCompleted := 0, totalTime := 0, bestTime := [], streak := { current := 0, best := 0 },
    history := [], lastPlayed := none }

/-- A persisted blob as JSON.parse sees it: either it parses to a value or
    parsing throws. -/
inductive Blob (α : Type) where
  | ok (v : α)
  | malformed
deriving DecidableEq

/-- JSON.parse: a SyntaxError on malformed input propagates, there is no
    try/catch around the storage.js parse sites. -/
def jsonParse {α : Type} (b : Blob α) : Except String α :=
  match b with
  | .ok v => Except.ok v
  | .malformed => Except.error "SyntaxError"

/-- storage.js loadProgress: data ? JSON.parse(data) : null. -/
def loadProgress (stored : Option (Blob Solving)) : Except String (Option Solving) :=
  match stored with
  | none => Except.ok none
  | some b => (jsonParse b).map some

/-- storage.js loadStats: parse when present, else the default record. -/
def loadStats (stored : Option (Blob GameStats)) : Except String GameStats :=
  match stored with
  | none => Except.ok defaultStats
  | some b => jsonParse b

/-- The pure body of storage.js updateStatsOnComplete on an already loaded
    record: count and time totals, best time (the JS guard
    !stats.bestTime[level] also treats a stored 0 as absent), the streak
    recompute with diffDays = today - lastPlayed in whole days, the best
    streak update, lastPlayed, and the history prepend truncated to 50. -/
def updateStatsPure (stats : GameStats) (level date : String)
    (elapsed hintsUsed : Nat) (today : Int) : GameStats :=
  let stats1 := { stats with totalCompleted := stats.totalCompleted + 1,
                             totalTime := stats.totalTime + elapsed }
  let best2 := match btGet stats1.bestTime level with
    | none => btSet stats1.bestTime level elapsed
    | some b =>
      if b = 0 ∨ elapsed < b then btSet stats1.bestTime level elapsed
      else stats1.bestTime
  let stats2 := { stats1 with bestTime := best2 }
  let cur3 := match stats2.lastPlayed with
    | some last =>
      let diffDays : Int := today - last
      if diffDays = 1 then stats2.streak.current + 1
      else if diffDays > 1 then 1
      else stats2.streak.current
    | none => 1
  let best3 := if cur3 > stats2.streak.best then cur3 else stats2.streak.best
  let stats5 := { stats2 with streak := { current := cur3, best := best3 },
                              lastPlayed := some today }
  let hist := ({ date := date, level := level, time := elapsed, hints := hintsUsed,
                 noHints := decide (hintsUsed = 0) } : HistEntry) :: stats5.history
  let hist2 := if hist.length > 50 then hist.take 50 else hist
  { stats5 with history := hist2 }

/-- storage.js updateStatsOnComplete including the loadStats read: the
    parse failure of a malformed stored record propagates. -/
def updateStatsOnComplete (stored : Option (Blob GameStats)) (level date : String)
    (elapsed hintsUsed : Nat) (today : Int) : Except String GameStats :=
  (loadStats stored).map (fun stats => updateStatsPure stats level date elapsed hintsUsed today)

/-! Concrete instances used by witnesses and counterexamples. -/

/-- A one-word example puzzle: one row of two playable cells, the single
    ACROSS clue 1 starting at (0, 0). -/
def pEx : PuzzleData :=
  { height := 1, width := 2,
    puzzle := [[PVal.num 1, PVal.blank]],
    cluesAcross := [(1, "c")],
    cluesDown := [] }

/-- An empty playable cell. -/
def cellEx : Cell := { isBlack := false, value := "", readOnly := false }

/-- The grid engine over pEx with solution AB and the cursor on the first
    cell. -/
def gEx : Grid :=
  { rows := 1, cols := 2,
    cells := [[cellEx, cellEx]],
    words := buildWords pEx,
    cellToWords := [[cellToWordsAt pEx 0 0, cellToWordsAt pEx 0 1]],
    solution := [["A", "B"]],
    activeCell := some (0, 0),
    activeDirection := Dir.across }

/-- The session over gEx after typing the correct letters A then B: the
    word is validated and both its cells are locked. -/
def sysAB : Sys :=
  handleKeyDown (handleKeyDown (initSys gEx) 1 0 0 (Key.letter "A")) 2 0 1 (Key.letter "B")

/-- A 1-by-1 grid whose single playable cell belongs to no word in either
    direction (a fully isolated cell). -/
def gIso : Grid :=
  { rows := 1, cols := 1,
    cells := [[cellEx]],
    words := [],
    cellToWords := [[{ across := none, down := none }]],
    solution := [["A"]],
    activeCell := none,
    activeDirection := Dir.across }

/-- The single word of gEx. -/
def wordEx : Word :=
  { id := 0, number := 1, direction := Dir.across, cells := [(0, 0), (0, 1)], clue := "c" }

/-- The session over gEx with both correct letters written into the grid
    but no validation run yet. -/
def sFilledEx : Sys :=
  { initSys gEx with grid := setLetter (setLetter gEx 0 0 "A") 0 1 "B" }

/-- A sequence of onLetterInput calls, each carrying its Date.now()
    timestamp, target cell and letter. -/
def runInputs (s : Sys) (inputs : List (Nat × Nat × Nat × String)) : Sys :=
  inputs.foldl (fun acc t => onLetterInput acc t.1 t.2.1 t.2.2.1 t.2.2.2) s

/-- The validation/completion-relevant part of a session: the word table,
    the validated set, the completed flag, the completion time and the
    completion-event count. -/
def core (s : Sys) : List Word × List Nat × Bool × Option Nat × Nat :=
  (s.grid.words, s.st.correctWords, s.st.completed, s.st.completedAt, s.ev.completions)

/-- The completion invariant maintained by every reachable session state:
    validated word ids are distinct and in range, the completed flag holds
    exactly when every word is validated, the completion time is recorded
    exactly when completed, and the completion event has fired exactly
    once when completed and never otherwise. -/
def Inv (s : Sys) : Prop :=
  s.st.correctWords.Nodup ∧
  (∀ i ∈ s.st.correctWords, i < s.grid.words.length) ∧
  (s.st.completed = true ↔ s.st.correctWords.length = s.grid.words.length) ∧
  (s.st.completedAt.isSome = s.st.completed) ∧
  s.ev.completions = (if s.st.completed then 1 else 0)

/-- The completion invariant together with the word table, which no
    operation ever changes. -/
def InvW (W : List Word) (s : Sys) : Prop :=
  s.grid.words = W ∧ Inv s

/-- One step does not unfreeze a completed session: the completed flag
    stays set and the completion event never fires again. -/
def FrozenStep (s t : Sys) : Prop :=
  s.st.completed = true → t.st.completed = true ∧ t.ev.completions = s.ev.completions

/-- The event sequence that types the two correct letters into gEx. -/
def evAB : List (Nat × Ev) :=
  [(1, Ev.key 0 0 (Key.letter "A")), (2, Ev.key 0 1 (Key.letter "B"))]

/-! Claim theorems. -/

/-- C10: for every coordinate pair that misses the cell table (out of
    bounds) or hits a black cell, getLetter returns the empty string and
    setLetter leaves the grid entirely unchanged; both are total. JS
    negative indices also miss the array and behave as the missing-cell
    case. -/
theorem getLetter_setLetter_total (g : Grid) (r c : Nat) (letter : String) :
    (getCellAt g r c = none → getLetter g r c = "" ∧ setLetter g r c letter = g) ∧
    (∀ cell, getCellAt g r c = some cell → cell.isBlack = true →
      getLetter g r c = "" ∧ setLetter g r c letter = g) := by
  cases hr : g.cells[r]? with
  | none =>
    have hget : getCellAt g r c = none := by simp [getCellAt, hr]
    refine ⟨fun _ => ⟨?_, ?_⟩, fun cell h2 _ => absurd (hget ▸ h2) (by simp)⟩
    · simp [getLetter, hget]
    · simp [setLetter, hr]
  | some rowCells =>
    cases hc : rowCells[c]? with
    | none =>
      have hget : getCellAt g r c = none := by simp [getCellAt, hr, hc]
      refine ⟨fun _ => ⟨?_, ?_⟩, fun cell h2 _ => absurd (hget ▸ h2) (by simp)⟩
      · simp [getLetter, hget]
      · simp [setLetter, hr, hc]
    | some cell =>
      have hget : getCellAt g r c = some cell := by simp [getCellAt, hr, hc]
      refine ⟨fun h => absurd (hget ▸ h) (by simp), ?_⟩
      intro cell2 h2 hb
      rw [hget] at h2
      cases h2
      constructor
      · simp [getLetter, hget, hb]
      · simp [setLetter, hr, hc, hb]

/-- C10 witness: a concrete out-of-bounds coordinate and a concrete black
    cell on a small grid. -/
theorem getLetter_setLetter_total_witness :
    getLetter gEx 5 7 = "" ∧ setLetter gEx 5 7 "Z" = gEx := by
  exact (getLetter_setLetter_total gEx 5 7 "Z").1 (by decide)

/-- C7 counterexample: a malformed stored statistics blob makes loadStats
    propagate the JSON.parse error instead of returning the default
    record, and loadProgress propagates it as well. -/
theorem loadStats_malformed_raises :
    loadStats (some Blob.malformed) ≠ Except.ok defaultStats ∧
    loadStats (some Blob.malformed) = Except.error "SyntaxError" ∧
    loadProgress (some Blob.malformed) = Except.error "SyntaxError" := by
  refine ⟨?_, rfl, rfl⟩
  intro h
  exact Except.noConfusion h

/-- C7 amended: loading tolerates absence — loadProgress returns the
    absent marker and loadStats the default record when nothing is stored,
    and a well-formed blob parses — but a malformed blob is not tolerated:
    the parse error propagates out of both loaders. -/
theorem load_absence_defaults (v : GameStats) (w : Solving) :
    loadProgress none = Except.ok none ∧
    loadStats none = Except.ok defaultStats ∧
    loadProgress (some (Blob.ok w)) = Except.ok (some w) ∧
    loadStats (some (Blob.ok v)) = Except.ok v ∧
    loadProgress (some Blob.malformed) = Except.error "SyntaxError" ∧
    loadStats (some Blob.malformed) = Except.error "SyntaxError" :=
  ⟨rfl, rfl, rfl, rfl, rfl, rfl⟩

/-- C4 (code bug): after the word over gEx is validated, both of its cells
    are locked (readOnly), yet a letter keydown, a Backspace and a Delete
    targeting the locked cell still change its content: handleKeyDown
    calls setLetter directly, and neither consults the lock flag. -/
theorem locked_cell_keydown_mutates :
    ((getCellAt sysAB.grid 0 0).map Cell.readOnly = some true) ∧
    getLetter sysAB.grid 0 0 = "A" ∧
    getLetter (handleKeyDown sysAB 5 0 0 (Key.letter "X")).grid 0 0 = "X" ∧
    getLetter (handleKeyDown sysAB 5 0 0 Key.backspace).grid 0 0 = "" ∧
    getLetter (handleKeyDown sysAB 5 0 0 Key.delete).grid 0 0 = "" := by
  decide

/-- C5 (code bug): revealLetter on the active cell of gEx reveals (0, 0)
    and counts one hint; revealing the same still-unlocked cell again adds
    no new revealed cell yet increments the counter a second time, so the
    counter is not once-per-distinct-revealed-cell. -/
theorem revealLetter_double_counts :
    (revealLetter (initSys gEx) 1).st.hintsUsed = 1 ∧
    (revealLetter (initSys gEx) 1).st.revealed = [(0, 0)] ∧
    (revealLetter (revealLetter (initSys gEx) 1) 2).st.revealed = [(0, 0)] ∧
    (revealLetter (revealLetter (initSys gEx) 1) 2).st.hintsUsed = 2 := by
  decide

/-- C8 counterexample: on the fully isolated cell of gIso (no across word,
    no down word), setActiveCell does not leave the active direction
    unchanged — it flips it to the other (equally unsupported) one. -/
theorem isolated_cell_direction_flips :
    ctwAt gIso 0 0 = some { across := none, down := none } ∧
    gIso.activeDirection = Dir.across ∧
    (setActiveCell gIso 0 0 none).activeDirection = Dir.down := by
  decide

/-- C6: the streak recompute of updateStatsOnComplete — a last-played date
    exactly one day before today increments the current streak, more than
    one day before resets it to 1, the same day leaves it unchanged, no
    prior date initializes it to 1; and the best streak is raised to the
    current streak exactly when the current exceeds it. -/
theorem streak_recompute (stats : GameStats) (level date : String)
    (elapsed hintsUsed : Nat) (today : Int) :
    (stats.lastPlayed = none →
      (updateStatsPure stats level date elapsed hintsUsed today).streak.current = 1) ∧
    (∀ last, stats.lastPlayed = some last →
      (today - last = 1 →
        (updateStatsPure stats level date elapsed hintsUsed today).streak.current =
          stats.streak.current + 1) ∧
      (today - last > 1 →
        (updateStatsPure stats level date elapsed hintsUsed today).streak.current = 1) ∧
      (today - last = 0 →
        (updateStatsPure stats level date elapsed hintsUsed today).streak.current =
          stats.streak.current)) ∧
    ((updateStatsPure stats level date elapsed hintsUsed today).streak.current >
        stats.streak.best →
      (updateStatsPure stats level date elapsed hintsUsed today).streak.best =
        (updateStatsPure stats level date elapsed hintsUsed today).streak.current) ∧
    ((updateStatsPure stats level date elapsed hintsUsed today).streak.current ≤
        stats.streak.best →
      (updateStatsPure stats level date elapsed hintsUsed today).streak.best =
        stats.streak.best) := by
  refine ⟨?_, ?_, ?_, ?_⟩
  · intro hlp
    simp [updateStatsPure, hlp]
  · intro last hlp
    refine ⟨fun h1 => ?_, fun h2 => ?_, fun h0 => ?_⟩
    · simp only [updateStatsPure, hlp]
      rw [if_pos h1]
    · simp only [updateStatsPure, hlp]
      rw [if_neg (by omega), if_pos (by omega)]
    · simp only [updateStatsPure, hlp]
      rw [if_neg (by omega), if_neg (by omega)]
  · intro h
    simp only [updateStatsPure] at h ⊢
    rw [if_pos h]
  · intro h
    simp only [updateStatsPure] at h ⊢
    rw [if_neg (by omega)]

/-- C6 witness: a concrete record with lastPlayed one day before today. -/
theorem streak_recompute_witness :
    (updateStatsPure
      { defaultStats with lastPlayed := some 99, streak := { current := 3, best := 3 } }
      "daily" "2026-01-01" 10 0 100).streak.current = 3 + 1 := by
  exact ((streak_recompute
    { defaultStats with lastPlayed := some 99, streak := { current := 3, best := 3 } }
    "daily" "2026-01-01" 10 0 100).2.1 99 rfl).1 (by decide)

/-- C9 counterexample: on a fresh session the very first input may be an
    erase and it still starts the clock: onLetterInput with the empty
    letter (the Backspace/Delete path) sets startTime and fires the
    timer-start notification before any non-empty input happened. -/
theorem empty_input_starts_clock :
    (initSys gEx).st.startTime = none ∧
    (onLetterInput (initSys gEx) 7 0 0 "").st.startTime = some 7 ∧
    (onLetterInput (initSys gEx) 7 0 0 "").ev.timerStarts = 1 ∧
    (handleKeyDown (initSys gEx) 7 0 0 Key.delete).ev.timerStarts = 1 := by
  decide


/-- Changing only the active direction leaves the cellToWords lookup
    unchanged. -/
theorem ctwAt_withDirection (g : Grid) (d : Dir) (r c : Nat) :
    ctwAt { g with activeDirection := d } r c = ctwAt g r c := rfl

/-- Double flip is the identity. -/
theorem flipDir_flipDir (d : Dir) : flipDir (flipDir d) = d := by
  cases d <;> rfl

/-- When a cell supports at least one direction and d is unsupported, the
    flipped direction is supported. -/
theorem cwDir_flip_isSome (cw : CW) (d : Dir)
    (hsup : cw.across.isSome ∨ cw.down.isSome)
    (h : cwDir cw d = none) : (cwDir cw (flipDir d)).isSome := by
  cases d <;> rcases hsup with h2 | h2 <;> simp_all [cwDir, flipDir]

/-- The direction resolution inside setActiveCell: take the requested
    direction when given, flip once when unsupported at the target cell. -/
theorem setActiveCell_direction (g : Grid) (r c : Nat) (dir : Option Dir) (cw : CW)
    (hcw : ctwAt g r c = some cw) :
    (setActiveCell g r c dir).activeDirection =
      (if cwDir cw (dir.getD g.activeDirection) = none
       then flipDir (dir.getD g.activeDirection)
       else dir.getD g.activeDirection) := by
  cases dir with
  | none =>
    simp only [setActiveCell, hcw, Option.getD_none]
    split_ifs <;> rfl
  | some d =>
    simp only [setActiveCell, ctwAt_withDirection, hcw, Option.getD_some]
    split_ifs <;> rfl

/-- The direction behavior of toggleDirection on the active cell. -/
theorem toggleDirection_direction (g : Grid) (r c : Nat) (cw : CW)
    (hac : g.activeCell = some (r, c)) (hcw : ctwAt g r c = some cw) :
    (toggleDirection g).activeDirection =
      (if (cwDir cw (flipDir g.activeDirection)).isSome
       then flipDir g.activeDirection else g.activeDirection) := by
  have h1 : toggleDirection g =
      (if (cwDir cw (flipDir g.activeDirection)).isSome
       then setActiveCell { g with activeDirection := flipDir g.activeDirection } r c none
       else g) := by
    unfold toggleDirection
    rw [hac]
    dsimp only
    rw [hcw]
  rw [h1]
  split_ifs with h
  · rw [setActiveCell_direction { g with activeDirection := flipDir g.activeDirection }
        r c none cw hcw]
    simp only [Option.getD_none]
    rw [if_neg ?hne]
    case hne =>
      intro hnone
      rw [hnone] at h
      simp at h
  · rfl

/-- C8 amended: after setActiveCell or toggleDirection the active
    direction is supported by the target cell whenever that cell supports
    at least one direction; on a fully isolated cell (neither direction
    supported) toggleDirection leaves the direction unchanged, but
    setActiveCell flips it to the opposite, equally unsupported,
    direction. -/
theorem direction_resolution (g : Grid) (r c : Nat) (dir : Option Dir) (cw : CW)
    (hcw : ctwAt g r c = some cw) :
    ((cw.across.isSome ∨ cw.down.isSome) →
      (cwDir cw (setActiveCell g r c dir).activeDirection).isSome) ∧
    ((cw.across.isSome ∨ cw.down.isSome) → g.activeCell = some (r, c) →
      (cwDir cw (toggleDirection g).activeDirection).isSome) ∧
    (cw.across = none → cw.down = none → g.activeCell = some (r, c) →
      (toggleDirection g).activeDirection = g.activeDirection) ∧
    (cw.across = none → cw.down = none →
      (setActiveCell g r c dir).activeDirection =
        flipDir (dir.getD g.activeDirection)) := by
  refine ⟨?_, ?_, ?_, ?_⟩
  · intro hsup
    rw [setActiveCell_direction g r c dir cw hcw]
    split_ifs with h
    · exact cwDir_flip_isSome cw _ hsup h
    · exact Option.isSome_iff_ne_none.mpr h
  · intro hsup hac
    rw [toggleDirection_direction g r c cw hac hcw]
    split_ifs with h
    · exact h
    · have hnone : cwDir cw (flipDir g.activeDirection) = none := by
        cases hval : cwDir cw (flipDir g.activeDirection) with
        | none => rfl
        | some v => rw [hval] at h; simp at h
      have := cwDir_flip_isSome cw (flipDir g.activeDirection) hsup hnone
      rwa [flipDir_flipDir] at this
  · intro ha hd hac
    rw [toggleDirection_direction g r c cw hac hcw]
    rw [if_neg ?hiso]
    case hiso =>
      cases g.activeDirection <;> simp [cwDir, flipDir, ha, hd]
  · intro ha hd
    rw [setActiveCell_direction g r c dir cw hcw]
    rw [if_pos ?hnone2]
    case hnone2 =>
      cases dir.getD g.activeDirection <;> simp [cwDir, ha, hd]

/-- C8 amended witness: on the first cell of gEx (which has an across word
    but no down word), requesting the down direction resolves to a
    supported direction. -/
theorem direction_resolution_witness :
    (cwDir { across := some 0, down := none }
      (setActiveCell gEx 0 0 (some Dir.down)).activeDirection).isSome := by
  exact (direction_resolution gEx 0 0 (some Dir.down)
    { across := some 0, down := none } (by decide)).1 (by decide)

/-- markWordCorrect never touches the solving state. -/
theorem markWordCorrect_st (s : Sys) (i : Nat) (a : Bool) :
    (markWordCorrect s i a).st = s.st := by
  unfold markWordCorrect
  split <;> rfl

/-- markWordCorrect never fires the timer-start notification. -/
theorem markWordCorrect_timerStarts (s : Sys) (i : Nat) (a : Bool) :
    (markWordCorrect s i a).ev.timerStarts = s.ev.timerStarts := by
  unfold markWordCorrect
  split <;> rfl

/-- checkCompletion only touches the completed flag, the completion time
    and the completion count. -/
theorem checkCompletion_clock (s : Sys) (now : Nat) :
    (checkCompletion s now).st.startTime = s.st.startTime ∧
    (checkCompletion s now).ev.timerStarts = s.ev.timerStarts := by
  unfold checkCompletion
  split_ifs <;> exact ⟨rfl, rfl⟩

/-- checkWord neither changes the session clock nor fires the timer-start
    notification. -/
theorem checkWord_clock (s : Sys) (now i : Nat) :
    (checkWord s now i).st.startTime = s.st.startTime ∧
    (checkWord s now i).ev.timerStarts = s.ev.timerStarts := by
  unfold checkWord
  split_ifs with h1
  · exact ⟨rfl, rfl⟩
  · split
    · exact ⟨rfl, rfl⟩
    · split_ifs with h2 h3
      · constructor
        · rw [(checkCompletion_clock _ now).1, markWordCorrect_st]
        · rw [(checkCompletion_clock _ now).2, markWordCorrect_timerStarts]
      · exact ⟨rfl, rfl⟩
      · exact ⟨rfl, rfl⟩

/-- checkCellWords neither changes the session clock nor fires the
    timer-start notification. -/
theorem checkCellWords_clock (s : Sys) (now r c : Nat) :
    (checkCellWords s now r c).st.startTime = s.st.startTime ∧
    (checkCellWords s now r c).ev.timerStarts = s.ev.timerStarts := by
  unfold checkCellWords
  cases hcw : ctwAt s.grid r c with
  | none => exact ⟨rfl, rfl⟩
  | some cw =>
    dsimp only
    cases ha : cw.across with
    | none =>
      cases hd : cw.down with
      | none => exact ⟨rfl, rfl⟩
      | some j => exact ⟨(checkWord_clock s now j).1, (checkWord_clock s now j).2⟩
    | some i =>
      cases hd : cw.down with
      | none => exact ⟨(checkWord_clock s now i).1, (checkWord_clock s now i).2⟩
      | some j =>
        exact ⟨((checkWord_clock (checkWord s now i) now j).1).trans (checkWord_clock s now i).1,
               ((checkWord_clock (checkWord s now i) now j).2).trans (checkWord_clock s now i).2⟩

/-- The clock behavior of one onLetterInput call: a falsy start time is
    set to now with one timer-start notification; otherwise both are left
    alone. -/
theorem onLetterInput_clock (s : Sys) (now r c : Nat) (letter : String) :
    (startTimeFalsy s.st.startTime = true →
      (onLetterInput s now r c letter).st.startTime = some now ∧
      (onLetterInput s now r c letter).ev.timerStarts = s.ev.timerStarts + 1) ∧
    (startTimeFalsy s.st.startTime = false →
      (onLetterInput s now r c letter).st.startTime = s.st.startTime ∧
      (onLetterInput s now r c letter).ev.timerStarts = s.ev.timerStarts) := by
  constructor
  · intro hf
    unfold onLetterInput
    rw [hf]
    simp only [if_true]
    split_ifs <;>
      refine ⟨?_, ?_⟩ <;>
        first
          | rw [(checkCellWords_clock _ now r c).1]
          | rw [(checkCellWords_clock _ now r c).2]
  · intro hf
    unfold onLetterInput
    rw [hf]
    simp only [Bool.false_eq_true, if_false]
    split_ifs <;>
      refine ⟨?_, ?_⟩ <;>
        first
          | rw [(checkCellWords_clock _ now r c).1]
          | rw [(checkCellWords_clock _ now r c).2]

/-- Once the clock is running with a positive start time, further inputs
    leave it and the notification count alone. -/
theorem runInputs_started (inputs : List (Nat × Nat × Nat × String)) (s : Sys)
    (t : Nat) (ht : 0 < t) (hstart : s.st.startTime = some t) :
    (runInputs s inputs).st.startTime = some t ∧
    (runInputs s inputs).ev.timerStarts = s.ev.timerStarts := by
  induction inputs generalizing s with
  | nil => exact ⟨hstart, rfl⟩
  | cons x xs ih =>
    have hf : startTimeFalsy s.st.startTime = false := by
      rw [hstart]
      simp [startTimeFalsy]
      omega
    have h2 := (onLetterInput_clock s x.1 x.2.1 x.2.2.1 x.2.2.2).2 hf
    have h3 := ih (onLetterInput s x.1 x.2.1 x.2.2.1 x.2.2.2) (h2.1.trans hstart)
    unfold runInputs at *
    rw [List.foldl_cons]
    exact ⟨h3.1, h3.2.trans h2.2⟩

/-- C9 amended: the session clock starts on the first letter-input event
    of any kind, empty or not — the code guards only on the start time
    being unset — and the timer-start notification fires exactly once per
    session: zero inputs leave the clock unset and the notification
    unfired, and any nonempty input sequence (with positive timestamps)
    ends with the start time of the first event and exactly one
    notification. -/
theorem clock_starts_on_first_input (g : Grid)
    (inputs : List (Nat × Nat × Nat × String))
    (hpos : ∀ x ∈ inputs, 0 < x.1) :
    (inputs = [] → (runInputs (initSys g) inputs).st.startTime = none ∧
      (runInputs (initSys g) inputs).ev.timerStarts = 0) ∧
    (∀ first rest, inputs = first :: rest →
      (runInputs (initSys g) inputs).st.startTime = some first.1 ∧
      (runInputs (initSys g) inputs).ev.timerStarts = 1) := by
  constructor
  · intro h
    subst h
    exact ⟨rfl, rfl⟩
  · intro first rest h
    subst h
    have hf : startTimeFalsy (initSys g).st.startTime = true := rfl
    have h1 := (onLetterInput_clock (initSys g) first.1 first.2.1 first.2.2.1 first.2.2.2).1 hf
    have hpos1 : 0 < first.1 := hpos first (List.mem_cons_self _ _)
    have h2 := runInputs_started rest
      (onLetterInput (initSys g) first.1 first.2.1 first.2.2.1 first.2.2.2)
      first.1 hpos1 h1.1
    unfold runInputs at *
    rw [List.foldl_cons]
    refine ⟨h2.1, ?_⟩
    rw [h2.2, h1.2]
    rfl

/-- C9 amended witness: a single concrete erase input at time 7 starts the
    clock at 7 and fires the notification once. -/
theorem clock_starts_on_first_input_witness :
    (runInputs (initSys gEx) [(7, 0, 0, "")]).st.startTime = some 7 ∧
    (runInputs (initSys gEx) [(7, 0, 0, "")]).ev.timerStarts = 1 := by
  exact (clock_starts_on_first_input gEx [(7, 0, 0, "")]
    (by intro x hx; simp at hx; subst hx; decide)).2 (7, 0, 0, "") [] rfl


/-- checkCompletion leaves the validated-word list alone. -/
theorem checkCompletion_correctWords (s : Sys) (now : Nat) :
    (checkCompletion s now).st.correctWords = s.st.correctWords := by
  unfold checkCompletion
  split_ifs <;> rfl

/-- C1: checkWord marks a word validated-correct iff every one of its
    cells holds a non-empty entered letter and every entered letter equals
    the solution letter at that coordinate (raw string comparison — the
    letters were uppercased and diacritic-stripped on input by
    handleKeyDown, and a missing solution entry compares unequal to every
    letter); a word already in the validated set is returned unevaluated;
    and a partially filled word, or a filled but mismatched one, leaves
    the entire session state unchanged — there is no incorrect state. -/
theorem checkWord_validates_iff (s : Sys) (now i : Nat) (w : Word)
    (hw : s.grid.words[i]? = some w) :
    (i ∈ s.st.correctWords → checkWord s now i = s) ∧
    (i ∈ (checkWord s now i).st.correctWords ↔
      i ∈ s.st.correctWords ∨
        ((∀ rc ∈ w.cells, getLetter s.grid rc.1 rc.2 ≠ "") ∧
         (∀ rc ∈ w.cells, some (getLetter s.grid rc.1 rc.2) = solutionAt s.grid rc.1 rc.2))) ∧
    ((¬ (∀ rc ∈ w.cells, getLetter s.grid rc.1 rc.2 ≠ "")) → checkWord s now i = s) ∧
    ((¬ (∀ rc ∈ w.cells, some (getLetter s.grid rc.1 rc.2) = solutionAt s.grid rc.1 rc.2)) →
      checkWord s now i = s) := by
  by_cases hmem : i ∈ s.st.correctWords
  · have he : checkWord s now i = s := by
      unfold checkWord
      rw [if_pos hmem]
    exact ⟨fun _ => he, by rw [he]; exact ⟨fun h => Or.inl h, fun _ => hmem⟩,
           fun _ => he, fun _ => he⟩
  · by_cases hfill : ∀ rc ∈ w.cells, getLetter s.grid rc.1 rc.2 ≠ ""
    · have hb1 : w.cells.all (fun rc => decide (getLetter s.grid rc.1 rc.2 ≠ "")) = true := by
        rw [List.all_eq_true]
        intro rc hrc
        exact decide_eq_true (hfill rc hrc)
      by_cases hcor : ∀ rc ∈ w.cells,
          some (getLetter s.grid rc.1 rc.2) = solutionAt s.grid rc.1 rc.2
      · have hb2 : w.cells.all
            (fun rc => decide (some (getLetter s.grid rc.1 rc.2) = solutionAt s.grid rc.1 rc.2)) = true := by
          rw [List.all_eq_true]
          intro rc hrc
          exact decide_eq_true (hcor rc hrc)
        have hsucc : (checkWord s now i).st.correctWords = s.st.correctWords ++ [i] := by
          unfold checkWord
          rw [if_neg hmem, hw]
          dsimp only
          rw [if_pos hb1, if_pos hb2]
          rw [checkCompletion_correctWords, markWordCorrect_st]
        refine ⟨fun h => absurd h hmem, ?_, fun h => absurd hfill h, fun h => absurd hcor h⟩
        rw [hsucc]
        constructor
        · intro _
          exact Or.inr ⟨hfill, hcor⟩
        · intro _
          exact List.mem_append.mpr (Or.inr (List.mem_singleton.mpr rfl))
      · have hb2f : ¬ (w.cells.all
            (fun rc => decide (some (getLetter s.grid rc.1 rc.2) = solutionAt s.grid rc.1 rc.2)) = true) := by
          rw [List.all_eq_true]
          intro hall
          exact hcor (fun rc hrc => of_decide_eq_true (hall rc hrc))
        have he : checkWord s now i = s := by
          unfold checkWord
          rw [if_neg hmem, hw]
          dsimp only
          rw [if_pos hb1, if_neg hb2f]
        refine ⟨fun h => absurd h hmem, ?_, fun h => absurd hfill h, fun _ => he⟩
        rw [he]
        exact ⟨fun h => Or.inl h, fun h => h.elim id (fun hh => absurd hh.2 hcor)⟩
    · have hb1f : ¬ (w.cells.all (fun rc => decide (getLetter s.grid rc.1 rc.2 ≠ "")) = true) := by
        rw [List.all_eq_true]
        intro hall
        exact hfill (fun rc hrc => of_decide_eq_true (hall rc hrc))
      have he : checkWord s now i = s := by
        unfold checkWord
        rw [if_neg hmem, hw]
        dsimp only
        rw [if_neg hb1f]
      refine ⟨fun h => absurd h hmem, ?_, fun _ => he, ?_⟩
      · rw [he]
        exact ⟨fun h => Or.inl h, fun h => h.elim id (fun hh => absurd hh.1 hfill)⟩
      · intro _
        exact he

/-- C1 witness: on the fully and correctly filled example session the
    check validates word 0, and an already validated word is returned
    unevaluated. -/
theorem checkWord_validates_iff_witness :
    0 ∈ (checkWord sFilledEx 1 0).st.correctWords := by
  exact ((checkWord_validates_iff sFilledEx 1 0 wordEx (by decide)).2.1).mpr
    (Or.inr ⟨by decide, by decide⟩)


/-- A foldl invariant principle with access to list membership. -/
theorem foldl_invariant_mem {α β : Type} (P : α → Prop) (f : α → β → α) :
    ∀ (l : List β) (init : α), P init → (∀ a b, b ∈ l → P a → P (f a b)) →
      P (l.foldl f init) := by
  intro l
  induction l with
  | nil =>
    intro init h0 _
    exact h0
  | cons x xs ih =>
    intro init h0 hstep
    exact ih (f init x) (hstep init x (List.mem_cons_self x xs) h0)
      (fun a b hb ha => hstep a b (List.mem_cons_of_mem x hb) ha)

/-- Whatever numberToPos returns is an in-bounds cell labeled with the
    requested clue number. -/
theorem numberToPos_spec (p : PuzzleData) (num : Nat) (rc : Nat × Nat)
    (h : numberToPos p num = some rc) :
    rc.1 < p.height ∧ rc.2 < p.width ∧ pvalAt p rc.1 rc.2 = some (PVal.num num) := by
  unfold numberToPos at h
  refine foldl_invariant_mem
    (fun o : Option (Nat × Nat) => ∀ rc2 : Nat × Nat, o = some rc2 →
      rc2.1 < p.height ∧ rc2.2 < p.width ∧ pvalAt p rc2.1 rc2.2 = some (PVal.num num))
    (fun acc r =>
      (List.range p.width).foldl
        (fun acc2 c => if pvalAt p r c = some (PVal.num num) then some (r, c) else acc2) acc)
    (List.range p.height) none (fun rc2 h2 => absurd h2 (by simp)) ?_ rc h
  intro a r hr ha
  refine foldl_invariant_mem
    (fun o : Option (Nat × Nat) => ∀ rc2 : Nat × Nat, o = some rc2 →
      rc2.1 < p.height ∧ rc2.2 < p.width ∧ pvalAt p rc2.1 rc2.2 = some (PVal.num num))
    (fun acc2 c => if pvalAt p r c = some (PVal.num num) then some (r, c) else acc2)
    (List.range p.width) a ha ?_
  intro a2 c hc ha2 rc2 h2
  dsimp only at h2
  by_cases hval : pvalAt p r c = some (PVal.num num)
  · rw [if_pos hval] at h2
    cases h2
    exact ⟨List.mem_range.mp hr, List.mem_range.mp hc, hval⟩
  · rw [if_neg hval] at h2
    exact ha2 rc2 h2

/-- A cell returned by numberToPos is playable. -/
theorem numberToPos_playable (p : PuzzleData) (num : Nat) (rc : Nat × Nat)
    (h : numberToPos p num = some rc) : isPlayable p rc.1 rc.2 = true := by
  obtain ⟨h1, h2, h3⟩ := numberToPos_spec p num rc h
  simp [isPlayable, h1, h2, h3]

/-- The bounded rightward walk with sufficient fuel is exactly the
    contiguous playable run: it lists the columns from its start, every
    listed cell is playable, and the cell after the run is black or past
    the edge. -/
theorem acrossRunFrom_spec (p : PuzzleData) (row : Nat) :
    ∀ (fuel col : Nat), p.width ≤ col + fuel →
      (acrossRunFrom p row col fuel =
        (List.range' col (acrossRunFrom p row col fuel).length).map (fun j => (row, j))) ∧
      (∀ i < (acrossRunFrom p row col fuel).length, isPlayable p row (col + i) = true) ∧
      isPlayable p row (col + (acrossRunFrom p row col fuel).length) = false := by
  intro fuel
  induction fuel with
  | zero =>
    intro col hcol
    refine ⟨rfl, fun i hi => absurd hi (by simp [acrossRunFrom]), ?_⟩
    have hge : ¬ (col + (acrossRunFrom p row col 0).length < p.width) := by
      simp only [acrossRunFrom, List.length_nil]
      omega
    simp [isPlayable, hge]
  | succ fuel ih =>
    intro col hcol
    by_cases hp : isPlayable p row col = true
    · have hrec : acrossRunFrom p row col (fuel + 1) =
          (row, col) :: acrossRunFrom p row (col + 1) fuel := by
        simp only [acrossRunFrom]
        rw [if_pos hp]
      obtain ⟨ih1, ih2, ih3⟩ := ih (col + 1) (by omega)
      rw [hrec]
      refine ⟨?_, ?_, ?_⟩
      · rw [List.length_cons, List.range'_succ, List.map_cons]
        rw [← ih1]
      · intro i hi
        cases i with
        | zero => exact hp
        | succ j =>
          rw [List.length_cons] at hi
          have : col + (j + 1) = (col + 1) + j := by omega
          rw [this]
          exact ih2 j (by omega)
      · rw [List.length_cons]
        have : col + ((acrossRunFrom p row (col + 1) fuel).length + 1) =
            (col + 1) + (acrossRunFrom p row (col + 1) fuel).length := by omega
        rw [this]
        exact ih3
    · have hrec : acrossRunFrom p row col (fuel + 1) = [] := by
        simp only [acrossRunFrom]
        rw [if_neg hp]
      rw [hrec]
      refine ⟨rfl, fun i hi => absurd hi (by simp), ?_⟩
      simp only [List.length_nil, Nat.add_zero]
      exact Bool.eq_false_iff.mpr hp

/-- The bounded downward walk with sufficient fuel is exactly the
    contiguous playable run downward. -/
theorem downRunFrom_spec (p : PuzzleData) (col : Nat) :
    ∀ (fuel row : Nat), p.height ≤ row + fuel →
      (downRunFrom p col row fuel =
        (List.range' row (downRunFrom p col row fuel).length).map (fun i => (i, col))) ∧
      (∀ i < (downRunFrom p col row fuel).length, isPlayable p (row + i) col = true) ∧
      isPlayable p (row + (downRunFrom p col row fuel).length) col = false := by
  intro fuel
  induction fuel with
  | zero =>
    intro row hrow
    refine ⟨rfl, fun i hi => absurd hi (by simp [downRunFrom]), ?_⟩
    have hge : ¬ (row + (downRunFrom p col row 0).length < p.height) := by
      simp only [downRunFrom, List.length_nil]
      omega
    simp [isPlayable, hge]
  | succ fuel ih =>
    intro row hrow
    by_cases hp : isPlayable p row col = true
    · have hrec : downRunFrom p col row (fuel + 1) =
          (row, col) :: downRunFrom p col (row + 1) fuel := by
        simp only [downRunFrom]
        rw [if_pos hp]
      obtain ⟨ih1, ih2, ih3⟩ := ih (row + 1) (by omega)
      rw [hrec]
      refine ⟨?_, ?_, ?_⟩
      · rw [List.length_cons, List.range'_succ, List.map_cons]
        rw [← ih1]
      · intro i hi
        cases i with
        | zero => exact hp
        | succ j =>
          rw [List.length_cons] at hi
          have : row + (j + 1) = (row + 1) + j := by omega
          rw [this]
          exact ih2 j (by omega)
      · rw [List.length_cons]
        have : row + ((downRunFrom p col (row + 1) fuel).length + 1) =
            (row + 1) + (downRunFrom p col (row + 1) fuel).length := by omega
        rw [this]
        exact ih3
    · have hrec : downRunFrom p col row (fuel + 1) = [] := by
        simp only [downRunFrom]
        rw [if_neg hp]
      rw [hrec]
      refine ⟨rfl, fun i hi => absurd hi (by simp), ?_⟩
      simp only [List.length_nil, Nat.add_zero]
      exact Bool.eq_false_iff.mpr hp

/-- The walk starting at a playable cell is nonempty. -/
theorem runFor_ne_nil (p : PuzzleData) (d : Dir) (r c : Nat)
    (hp : isPlayable p r c = true) : runFor p d r c ≠ [] := by
  have hb : r < p.height ∧ c < p.width := by
    simp only [isPlayable, Bool.and_eq_true, decide_eq_true_eq] at hp
    exact ⟨hp.1.1, hp.1.2⟩
  cases d with
  | across =>
    obtain ⟨k, hk⟩ : ∃ k, p.width - c = k + 1 := ⟨p.width - c - 1, by omega⟩
    show acrossRun p r c ≠ []
    unfold acrossRun
    rw [hk]
    simp only [acrossRunFrom]
    rw [if_pos hp]
    exact List.cons_ne_nil _ _
  | down =>
    obtain ⟨k, hk⟩ : ∃ k, p.height - r = k + 1 := ⟨p.height - r - 1, by omega⟩
    show downRun p r c ≠ []
    unfold downRun
    rw [hk]
    simp only [downRunFrom]
    rw [if_pos hp]
    exact List.cons_ne_nil _ _

/-- The clue fold only appends: words in the accumulator survive. -/
theorem mem_buildDir_mono (p : PuzzleData) (d : Dir) (cs : List (Nat × String)) :
    ∀ (acc : List Word) (w : Word), w ∈ acc → w ∈ buildDir p d cs acc := by
  induction cs with
  | nil =>
    intro acc w hw
    exact hw
  | cons x xs ih =>
    intro acc w hw
    have hstep : w ∈ (match numberToPos p x.1 with
        | none => acc
        | some rc => acc ++ [({ id := acc.length, number := x.1, direction := d,
                                cells := runFor p d rc.1 rc.2, clue := x.2 } : Word)]) := by
      cases numberToPos p x.1 with
      | none => exact hw
      | some rc => exact List.mem_append_left _ hw
    exact ih _ w hstep

/-- Every accepted clue of the list contributes a word with that number,
    the fold direction and the walk from the labeled cell. -/
theorem buildDir_exists (p : PuzzleData) (d : Dir) (cs : List (Nat × String)) :
    ∀ (acc : List Word) (nc : Nat × String), nc ∈ cs →
      ∀ rc, numberToPos p nc.1 = some rc →
      ∃ w ∈ buildDir p d cs acc, w.number = nc.1 ∧ w.direction = d ∧
        w.cells = runFor p d rc.1 rc.2 ∧ w.clue = nc.2 := by
  induction cs with
  | nil =>
    intro acc nc hnc
    exact absurd hnc (by simp)
  | cons x xs ih =>
    intro acc nc hnc rc hpos
    rcases List.mem_cons.mp hnc with heq | h2
    · subst heq
      have heqb : buildDir p d (nc :: xs) acc =
          buildDir p d xs (acc ++ [{ id := acc.length, number := nc.1, direction := d,
                                     cells := runFor p d rc.1 rc.2, clue := nc.2 }]) := by
        unfold buildDir
        simp only [List.foldl_cons]
        rw [hpos]
      rw [heqb]
      refine ⟨_, mem_buildDir_mono p d xs _ _
        (List.mem_append_right _ (List.mem_singleton.mpr rfl)), rfl, rfl, rfl, rfl⟩
    · exact ih (match numberToPos p x.1 with
        | none => acc
        | some rc2 => acc ++ [({ id := acc.length, number := x.1, direction := d,
                                 cells := runFor p d rc2.1 rc2.2, clue := x.2 } : Word)]) nc h2 rc hpos

/-- Everything the clue fold produces is either from the accumulator or a
    word built from an accepted clue of the list. -/
theorem mem_buildDir_cases (p : PuzzleData) (d : Dir) (cs : List (Nat × String)) :
    ∀ (acc : List Word) (w : Word), w ∈ buildDir p d cs acc →
      w ∈ acc ∨ ∃ nc, nc ∈ cs ∧ ∃ rc, numberToPos p nc.1 = some rc ∧
        w.number = nc.1 ∧ w.direction = d ∧ w.cells = runFor p d rc.1 rc.2 := by
  induction cs with
  | nil =>
    intro acc w hw
    exact Or.inl hw
  | cons x xs ih =>
    intro acc w hw
    rcases ih (match numberToPos p x.1 with
        | none => acc
        | some rc2 => acc ++ [({ id := acc.length, number := x.1, direction := d,
                                 cells := runFor p d rc2.1 rc2.2, clue := x.2 } : Word)]) w hw with
      hacc | ⟨nc, hnc, rest⟩
    · cases hpos : numberToPos p x.1 with
      | none =>
        rw [hpos] at hacc
        exact Or.inl hacc
      | some rc =>
        rw [hpos] at hacc
        rcases List.mem_append.mp hacc with h1 | h1
        · exact Or.inl h1
        · have hw2 := List.mem_singleton.mp h1
          subst hw2
          exact Or.inr ⟨x, List.mem_cons_self x xs, rc, hpos, rfl, rfl, rfl⟩
    · exact Or.inr ⟨nc, List.mem_cons_of_mem x hnc, rest⟩

/-- The across entry of the cellToWords fold: either no across word covers
    the cell and the entry is the initial one, or the entry names an
    across word of the list covering the cell. -/
theorem ctwFold_across (r c : Nat) (ws : List Word) :
    ∀ init : CW,
      ((ws.foldl (ctwWrite r c) init).across = init.across ∧
        ∀ w ∈ ws, ¬ (w.direction = Dir.across ∧ (r, c) ∈ w.cells)) ∨
      (∃ w ∈ ws, w.direction = Dir.across ∧ (r, c) ∈ w.cells ∧
        (ws.foldl (ctwWrite r c) init).across = some w.id) := by
  induction ws with
  | nil =>
    intro init
    exact Or.inl ⟨rfl, by simp⟩
  | cons x xs ih =>
    intro init
    rcases ih (ctwWrite r c init x) with ⟨h1, h2⟩ | ⟨w, hw, hd, hm, hres⟩
    · by_cases hx : x.direction = Dir.across ∧ (r, c) ∈ x.cells
      · refine Or.inr ⟨x, List.mem_cons_self x xs, hx.1, hx.2, ?_⟩
        rw [List.foldl_cons, h1]
        unfold ctwWrite
        rw [if_pos hx.2, hx.1]
      · refine Or.inl ⟨?_, ?_⟩
        · rw [List.foldl_cons, h1]
          unfold ctwWrite
          by_cases hmem2 : (r, c) ∈ x.cells
          · rw [if_pos hmem2]
            cases hdir : x.direction with
            | across => exact absurd ⟨hdir, hmem2⟩ hx
            | down => rfl
          · rw [if_neg hmem2]
        · intro w hw
          rcases List.mem_cons.mp hw with heq | hw2
          · subst heq
            exact hx
          · exact h2 w hw2
    · exact Or.inr ⟨w, List.mem_cons_of_mem x hw, hd, hm, by rw [List.foldl_cons]; exact hres⟩

/-- The down entry of the cellToWords fold, symmetric to ctwFold_across. -/
theorem ctwFold_down (r c : Nat) (ws : List Word) :
    ∀ init : CW,
      ((ws.foldl (ctwWrite r c) init).down = init.down ∧
        ∀ w ∈ ws, ¬ (w.direction = Dir.down ∧ (r, c) ∈ w.cells)) ∨
      (∃ w ∈ ws, w.direction = Dir.down ∧ (r, c) ∈ w.cells ∧
        (ws.foldl (ctwWrite r c) init).down = some w.id) := by
  induction ws with
  | nil =>
    intro init
    exact Or.inl ⟨rfl, by simp⟩
  | cons x xs ih =>
    intro init
    rcases ih (ctwWrite r c init x) with ⟨h1, h2⟩ | ⟨w, hw, hd, hm, hres⟩
    · by_cases hx : x.direction = Dir.down ∧ (r, c) ∈ x.cells
      · refine Or.inr ⟨x, List.mem_cons_self x xs, hx.1, hx.2, ?_⟩
        rw [List.foldl_cons, h1]
        unfold ctwWrite
        rw [if_pos hx.2, hx.1]
      · refine Or.inl ⟨?_, ?_⟩
        · rw [List.foldl_cons, h1]
          unfold ctwWrite
          by_cases hmem2 : (r, c) ∈ x.cells
          · rw [if_pos hmem2]
            cases hdir : x.direction with
            | across => rfl
            | down => exact absurd ⟨hdir, hmem2⟩ hx
          · rw [if_neg hmem2]
        · intro w hw
          rcases List.mem_cons.mp hw with heq | hw2
          · subst heq
            exact hx
          · exact h2 w hw2
    · exact Or.inr ⟨w, List.mem_cons_of_mem x hw, hd, hm, by rw [List.foldl_cons]; exact hres⟩

/-- C3: word building and the cell-to-word index. The across/down walks
    are exactly the contiguous playable runs from their start cell,
    stopping at a black cell or the grid edge; numberToPos only returns
    cells labeled with the clue number; every clue whose number labels a
    cell yields a word whose cells are the (nonempty) walk from that cell,
    while clues whose number labels no cell contribute no word; and the
    cellToWords index names only words covering the cell, and is present
    for a direction exactly when some word of that direction covers the
    cell. -/
theorem buildWords_spec (p : PuzzleData) :
    (∀ row col,
      acrossRun p row col =
        (List.range' col (acrossRun p row col).length).map (fun j => (row, j)) ∧
      (∀ i < (acrossRun p row col).length, isPlayable p row (col + i) = true) ∧
      isPlayable p row (col + (acrossRun p row col).length) = false) ∧
    (∀ row col,
      downRun p row col =
        (List.range' row (downRun p row col).length).map (fun i => (i, col)) ∧
      (∀ i < (downRun p row col).length, isPlayable p (row + i) col = true) ∧
      isPlayable p (row + (downRun p row col).length) col = false) ∧
    (∀ num rc, numberToPos p num = some rc →
      pvalAt p rc.1 rc.2 = some (PVal.num num)) ∧
    (∀ nc ∈ p.cluesAcross, ∀ rc, numberToPos p nc.1 = some rc →
      ∃ w ∈ buildWords p, w.number = nc.1 ∧ w.direction = Dir.across ∧
        w.cells = acrossRun p rc.1 rc.2 ∧ w.cells ≠ []) ∧
    (∀ nc ∈ p.cluesDown, ∀ rc, numberToPos p nc.1 = some rc →
      ∃ w ∈ buildWords p, w.number = nc.1 ∧ w.direction = Dir.down ∧
        w.cells = downRun p rc.1 rc.2 ∧ w.cells ≠ []) ∧
    (∀ num, numberToPos p num = none → ∀ w ∈ buildWords p, w.number ≠ num) ∧
    (∀ r c i, (cellToWordsAt p r c).across = some i →
      ∃ w ∈ buildWords p, w.id = i ∧ w.direction = Dir.across ∧ (r, c) ∈ w.cells) ∧
    (∀ r c i, (cellToWordsAt p r c).down = some i →
      ∃ w ∈ buildWords p, w.id = i ∧ w.direction = Dir.down ∧ (r, c) ∈ w.cells) ∧
    (∀ r c, (cellToWordsAt p r c).across.isSome ↔
      ∃ w ∈ buildWords p, w.direction = Dir.across ∧ (r, c) ∈ w.cells) ∧
    (∀ r c, (cellToWordsAt p r c).down.isSome ↔
      ∃ w ∈ buildWords p, w.direction = Dir.down ∧ (r, c) ∈ w.cells) := by
  refine ⟨?_, ?_, ?_, ?_, ?_, ?_, ?_, ?_, ?_, ?_⟩
  · intro row col
    exact acrossRunFrom_spec p row (p.width - col) col (by omega)
  · intro row col
    exact downRunFrom_spec p col (p.height - row) row (by omega)
  · intro num rc h
    exact (numberToPos_spec p num rc h).2.2
  · intro nc hnc rc hpos
    obtain ⟨w, hw, h1, h2, h3, _⟩ :=
      buildDir_exists p Dir.across p.cluesAcross [] nc hnc rc hpos
    refine ⟨w, mem_buildDir_mono p Dir.down p.cluesDown _ w hw, h1, h2, h3, ?_⟩
    rw [h3]
    exact runFor_ne_nil p Dir.across rc.1 rc.2 (numberToPos_playable p nc.1 rc hpos)
  · intro nc hnc rc hpos
    obtain ⟨w, hw, h1, h2, h3, _⟩ := buildDir_exists p Dir.down p.cluesDown
      (buildDir p Dir.across p.cluesAcross []) nc hnc rc hpos
    refine ⟨w, hw, h1, h2, h3, ?_⟩
    rw [h3]
    exact runFor_ne_nil p Dir.down rc.1 rc.2 (numberToPos_playable p nc.1 rc hpos)
  · intro num hnone w hw hnum
    rcases mem_buildDir_cases p Dir.down p.cluesDown _ w hw with hacc | ⟨nc, _, rc, hpos, hn, _⟩
    · rcases mem_buildDir_cases p Dir.across p.cluesAcross [] w hacc with h0 | ⟨nc, _, rc, hpos, hn, _⟩
      · exact absurd h0 (by simp)
      · rw [hnum] at hn
        rw [hn] at hnone
        rw [hnone] at hpos
        cases hpos
    · rw [hnum] at hn
      rw [hn] at hnone
      rw [hnone] at hpos
      cases hpos
  · intro r c i h
    rcases ctwFold_across r c (buildWords p) { across := none, down := none } with
      ⟨h1, _⟩ | ⟨w, hw, hd, hm, hres⟩
    · rw [show (cellToWordsAt p r c).across = none from h1] at h
      cases h
    · rw [show (cellToWordsAt p r c).across = some w.id from hres] at h
      cases h
      exact ⟨w, hw, rfl, hd, hm⟩
  · intro r c i h
    rcases ctwFold_down r c (buildWords p) { across := none, down := none } with
      ⟨h1, _⟩ | ⟨w, hw, hd, hm, hres⟩
    · rw [show (cellToWordsAt p r c).down = none from h1] at h
      cases h
    · rw [show (cellToWordsAt p r c).down = some w.id from hres] at h
      cases h
      exact ⟨w, hw, rfl, hd, hm⟩
  · intro r c
    rcases ctwFold_across r c (buildWords p) { across := none, down := none } with
      ⟨h1, h2⟩ | ⟨w, hw, hd, hm, hres⟩
    · rw [show (cellToWordsAt p r c).across = none from h1]
      simp only [Option.isSome_none, Bool.false_eq_true, false_iff]
      intro ⟨w, hw, hd, hm⟩
      exact h2 w hw ⟨hd, hm⟩
    · rw [show (cellToWordsAt p r c).across = some w.id from hres]
      simp only [Option.isSome_some, true_iff]
      exact ⟨w, hw, hd, hm⟩
  · intro r c
    rcases ctwFold_down r c (buildWords p) { across := none, down := none } with
      ⟨h1, h2⟩ | ⟨w, hw, hd, hm, hres⟩
    · rw [show (cellToWordsAt p r c).down = none from h1]
      simp only [Option.isSome_none, Bool.false_eq_true, false_iff]
      intro ⟨w, hw, hd, hm⟩
      exact h2 w hw ⟨hd, hm⟩
    · rw [show (cellToWordsAt p r c).down = some w.id from hres]
      simp only [Option.isSome_some, true_iff]
      exact ⟨w, hw, hd, hm⟩

/-- C3 witness: on the example puzzle the accepted across clue 1 yields
    the expected word and its index entries. -/
theorem buildWords_spec_witness :
    ∃ w ∈ buildWords pEx, w.number = 1 ∧ w.direction = Dir.across ∧
      w.cells = acrossRun pEx 0 0 ∧ w.cells ≠ [] := by
  exact (buildWords_spec pEx).2.2.2.1 (1, "c") (by decide) (0, 0) (by decide)


/-- Language-level branch analysis of checkWord: it either returns the
    state unchanged or, for a fresh index naming an existing word, appends
    the index, locks and notifies, and checks completion. -/
theorem checkWord_cases (s : Sys) (now i : Nat) :
    checkWord s now i = s ∨
    (∃ w, s.grid.words[i]? = some w) ∧ i ∉ s.st.correctWords ∧
      checkWord s now i =
        checkCompletion (markWordCorrect
          { s with st := { s.st with correctWords := s.st.correctWords ++ [i] } } i true) now := by
  unfold checkWord
  split
  next => exact Or.inl rfl
  next hmem =>
    split
    next => exact Or.inl rfl
    next w heq =>
      split
      next =>
        split
        next => exact Or.inr ⟨⟨w, heq⟩, hmem, rfl⟩
        next => exact Or.inl rfl
      next => exact Or.inl rfl

/-- markWordCorrect never fires the completion event. -/
theorem markWordCorrect_completions (s : Sys) (i : Nat) (a : Bool) :
    (markWordCorrect s i a).ev.completions = s.ev.completions := by
  unfold markWordCorrect
  split <;> rfl

/-- setLetter leaves the word table alone. -/
theorem setLetter_words (g : Grid) (r c : Nat) (l : String) :
    (setLetter g r c l).words = g.words := by
  unfold setLetter
  repeat' split
  all_goals rfl

/-- lockCell leaves the word table alone. -/
theorem lockCell_words (g : Grid) (r c : Nat) :
    (lockCell g r c).words = g.words := by
  unfold lockCell
  repeat' split
  all_goals rfl

/-- Locking every cell of a word leaves the word table alone. -/
theorem foldl_lockCell_words (l : List (Nat × Nat)) :
    ∀ g : Grid, (l.foldl (fun g2 rc => lockCell g2 rc.1 rc.2) g).words = g.words := by
  induction l with
  | nil =>
    intro g
    rfl
  | cons x xs ih =>
    intro g
    rw [List.foldl_cons, ih (lockCell g x.1 x.2), lockCell_words]

/-- markWordCorrect leaves the word table alone. -/
theorem markWordCorrect_words (s : Sys) (i : Nat) (a : Bool) :
    (markWordCorrect s i a).grid.words = s.grid.words := by
  unfold markWordCorrect
  split
  · rfl
  · exact foldl_lockCell_words _ s.grid

/-- checkCompletion leaves the word table alone. -/
theorem checkCompletion_words (s : Sys) (now : Nat) :
    (checkCompletion s now).grid.words = s.grid.words := by
  unfold checkCompletion
  split_ifs <;> rfl

/-- checkCompletion on an already completed session does nothing. -/
theorem frozen_checkCompletion (t : Sys) (now : Nat) (hc : t.st.completed = true) :
    checkCompletion t now = t := by
  unfold checkCompletion
  rw [hc]
  simp

/-- setActiveCell leaves the word table alone. -/
theorem setActiveCell_words (g : Grid) (r c : Nat) (dir : Option Dir) :
    (setActiveCell g r c dir).words = g.words := by
  unfold setActiveCell
  dsimp only
  repeat' split
  all_goals rfl

/-- moveToNextCell leaves the word table alone. -/
theorem moveToNextCell_words (g : Grid) : (moveToNextCell g).words = g.words := by
  unfold moveToNextCell
  dsimp only
  repeat' split
  all_goals first | rfl | apply setActiveCell_words

/-- moveToPrevCell leaves the word table alone. -/
theorem moveToPrevCell_words (g : Grid) : (moveToPrevCell g).words = g.words := by
  unfold moveToPrevCell
  dsimp only
  repeat' split
  all_goals first | rfl | apply setActiveCell_words

/-- Transport of InvW along equal core fields. -/
theorem InvW_transport (W : List Word) (s t : Sys)
    (hw : t.grid.words = s.grid.words)
    (hcw : t.st.correctWords = s.st.correctWords)
    (hc : t.st.completed = s.st.completed)
    (hca : t.st.completedAt = s.st.completedAt)
    (he : t.ev.completions = s.ev.completions)
    (h : InvW W s) : InvW W t := by
  obtain ⟨hW, h1, h2, h3, h4, h5⟩ := h
  refine ⟨hw.trans hW, ?_, ?_, ?_, ?_, ?_⟩
  · rw [hcw]
    exact h1
  · rw [hcw, hw]
    exact h2
  · rw [hc, hcw, hw]
    exact h3
  · rw [hca, hc]
    exact h4
  · rw [he, hc]
    exact h5

/-- Replacing the grid by one with the same word table preserves InvW. -/
theorem InvW_setGrid (W : List Word) (s : Sys) (g2 : Grid)
    (hw : g2.words = s.grid.words) (h : InvW W s) : InvW W { s with grid := g2 } :=
  InvW_transport W s _ hw rfl rfl rfl rfl h

/-- A list of distinct indices below n has at most n entries. -/
theorem length_le_of_nodup_bound (l : List Nat) (n : Nat) (hnd : l.Nodup)
    (hb : ∀ i ∈ l, i < n) : l.length ≤ n := by
  have hsub : l.toFinset ⊆ Finset.range n := by
    intro x hx
    exact Finset.mem_range.mpr (hb x (List.mem_toFinset.mp hx))
  have hcard := Finset.card_le_card hsub
  rwa [List.toFinset_card_of_nodup hnd, Finset.card_range] at hcard

/-- A full list of distinct indices below n contains every index below n. -/
theorem mem_of_nodup_bound_length (l : List Nat) (n : Nat) (hnd : l.Nodup)
    (hb : ∀ i ∈ l, i < n) (hlen : l.length = n) : ∀ j < n, j ∈ l := by
  intro j hj
  by_contra hjn
  have hsub : l.toFinset ⊆ Finset.range n := by
    intro x hx
    exact Finset.mem_range.mpr (hb x (List.mem_toFinset.mp hx))
  have hcard : l.toFinset.card = n := by
    rw [List.toFinset_card_of_nodup hnd, hlen]
  have hfin : l.toFinset = Finset.range n :=
    Finset.eq_of_subset_of_card_le hsub (by rw [hcard, Finset.card_range])
  apply hjn
  rw [← List.mem_toFinset, hfin]
  exact Finset.mem_range.mpr hj

/-- checkCompletion establishes the completion invariant on the state that
    checkWord hands it after appending a fresh valid index. -/
theorem InvW_checkCompletion_establish (W : List Word) (t : Sys) (now : Nat)
    (hW : t.grid.words = W)
    (hnd : t.st.correctWords.Nodup)
    (hb : ∀ j ∈ t.st.correctWords, j < t.grid.words.length)
    (hcompleted : t.st.completed = false)
    (hat : t.st.completedAt.isSome = false)
    (hev : t.ev.completions = 0) : InvW W (checkCompletion t now) := by
  unfold checkCompletion
  rw [hcompleted]
  simp only [Bool.false_eq_true, if_false]
  split_ifs with hlen
  · refine ⟨hW, hnd, hb, ?_, rfl, ?_⟩
    · simp only [hlen]
    · simp [hev]
  · refine ⟨hW, hnd, hb, ?_, ?_, ?_⟩
    · simp only [hcompleted]
      constructor
      · intro hfalse
        cases hfalse
      · intro hl
        exact absurd hl hlen
    · rw [hat, hcompleted]
    · rw [hev, hcompleted]
      simp

/-- checkWord preserves the completion invariant. -/
theorem InvW_checkWord (W : List Word) (s : Sys) (now i : Nat)
    (h : InvW W s) : InvW W (checkWord s now i) := by
  rcases checkWord_cases s now i with heq | ⟨⟨w, hw2⟩, hmem, heq⟩
  · rw [heq]
    exact h
  · rw [heq]
    obtain ⟨hW, hnd, hb, hcomp, hat, hev⟩ := h
    obtain ⟨hi, _⟩ := List.getElem?_eq_some.mp hw2
    have hlt : s.st.correctWords.length < s.grid.words.length := by
      rcases Nat.lt_or_ge s.st.correctWords.length s.grid.words.length with hl | hl
      · exact hl
      · have hle := length_le_of_nodup_bound s.st.correctWords s.grid.words.length hnd hb
        have hlen : s.st.correctWords.length = s.grid.words.length := by omega
        exact absurd (mem_of_nodup_bound_length s.st.correctWords s.grid.words.length
          hnd hb hlen i hi) hmem
    have hcf : s.st.completed = false := by
      cases hcb : s.st.completed with
      | false => rfl
      | true => exact absurd (hcomp.mp hcb) (by omega)
    set s1 : Sys := { s with st := { s.st with correctWords := s.st.correctWords ++ [i] } } with hs1
    refine InvW_checkCompletion_establish W (markWordCorrect s1 i true) now ?_ ?_ ?_ ?_ ?_ ?_
    · rw [markWordCorrect_words]
      exact hW
    · rw [markWordCorrect_st]
      show (s.st.correctWords ++ [i]).Nodup
      refine List.Nodup.append hnd (List.nodup_singleton i) ?_
      intro x hx1 hx2
      rw [List.mem_singleton] at hx2
      subst hx2
      exact hmem hx1
    · rw [markWordCorrect_st, markWordCorrect_words]
      intro j hj
      show j < s.grid.words.length
      rcases List.mem_append.mp hj with hj1 | hj1
      · exact hb j hj1
      · rw [List.mem_singleton] at hj1
        subst hj1
        exact hi
    · rw [markWordCorrect_st]
      exact hcf
    · rw [markWordCorrect_st]
      show s.st.completedAt.isSome = false
      rw [hat, hcf]
    · rw [markWordCorrect_completions]
      show s.ev.completions = 0
      rw [hev, hcf]
      simp

/-- checkWord does not unfreeze a completed session. -/
theorem frozen_checkWord (s : Sys) (now i : Nat) : FrozenStep s (checkWord s now i) := by
  intro hc
  rcases checkWord_cases s now i with heq | ⟨⟨w, hw2⟩, hmem, heq⟩
  · rw [heq]
    exact ⟨hc, rfl⟩
  · rw [heq]
    set s1 : Sys := { s with st := { s.st with correctWords := s.st.correctWords ++ [i] } } with hs1
    have hmmc : (markWordCorrect s1 i true).st.completed = true := by
      rw [markWordCorrect_st]
      exact hc
    rw [frozen_checkCompletion _ now hmmc]
    exact ⟨hmmc, markWordCorrect_completions _ i true⟩

/-- checkCellWords preserves the completion invariant. -/
theorem InvW_checkCellWords (W : List Word) (s : Sys) (now r c : Nat)
    (h : InvW W s) : InvW W (checkCellWords s now r c) := by
  unfold checkCellWords
  cases hcw : ctwAt s.grid r c with
  | none => exact h
  | some cw =>
    dsimp only
    cases ha : cw.across with
    | none =>
      cases hd : cw.down with
      | none => exact h
      | some j => exact InvW_checkWord W s now j h
    | some i =>
      cases hd : cw.down with
      | none => exact InvW_checkWord W s now i h
      | some j => exact InvW_checkWord W _ now j (InvW_checkWord W s now i h)

/-- checkCellWords does not unfreeze a completed session. -/
theorem frozen_checkCellWords (s : Sys) (now r c : Nat) :
    FrozenStep s (checkCellWords s now r c) := by
  intro hc
  unfold checkCellWords
  cases hcw : ctwAt s.grid r c with
  | none => exact ⟨hc, rfl⟩
  | some cw =>
    dsimp only
    cases ha : cw.across with
    | none =>
      cases hd : cw.down with
      | none => exact ⟨hc, rfl⟩
      | some j => exact frozen_checkWord s now j hc
    | some i =>
      cases hd : cw.down with
      | none => exact frozen_checkWord s now i hc
      | some j =>
        obtain ⟨h1, h2⟩ := frozen_checkWord s now i hc
        obtain ⟨h3, h4⟩ := frozen_checkWord (checkWord s now i) now j h1
        exact ⟨h3, h4.trans h2⟩


/-- FrozenStep composes. -/
theorem frozenStep_trans (s t u : Sys) (h1 : FrozenStep s t) (h2 : FrozenStep t u) :
    FrozenStep s u := by
  intro hc
  obtain ⟨hc1, he1⟩ := h1 hc
  obtain ⟨hc2, he2⟩ := h2 hc1
  exact ⟨hc2, he2.trans he1⟩

/-- Replacing the grid never touches the completion state. -/
theorem frozen_setGrid (s : Sys) (g2 : Grid) : FrozenStep s { s with grid := g2 } :=
  fun hc => ⟨hc, rfl⟩

/-- onLetterInput preserves the completion invariant. -/
theorem InvW_onLetterInput (W : List Word) (s : Sys) (now r c : Nat) (letter : String)
    (h : InvW W s) : InvW W (onLetterInput s now r c letter) := by
  unfold onLetterInput
  dsimp only
  apply InvW_checkCellWords
  split_ifs <;> exact InvW_transport W s _ rfl rfl rfl rfl rfl h

/-- onLetterInput does not unfreeze a completed session. -/
theorem frozen_onLetterInput (s : Sys) (now r c : Nat) (letter : String) :
    FrozenStep s (onLetterInput s now r c letter) := by
  intro hc
  unfold onLetterInput
  dsimp only
  split_ifs <;> exact frozen_checkCellWords _ now r c hc

/-- revealLetter preserves the completion invariant. -/
theorem InvW_revealLetter (W : List Word) (s : Sys) (now : Nat)
    (h : InvW W s) : InvW W (revealLetter s now) := by
  unfold revealLetter
  dsimp only
  repeat' split
  all_goals first
    | exact h
    | (apply InvW_checkCellWords
       exact InvW_transport W s _ (setLetter_words _ _ _ _) rfl rfl rfl rfl h)

/-- revealLetter does not unfreeze a completed session. -/
theorem frozen_revealLetter (s : Sys) (now : Nat) : FrozenStep s (revealLetter s now) := by
  intro hc
  unfold revealLetter
  dsimp only
  repeat' split
  all_goals first
    | exact ⟨hc, rfl⟩
    | exact frozen_checkCellWords _ now _ _ hc

/-- One revealWord loop body preserves the completion invariant. -/
theorem InvW_revealWordCell (W : List Word) (s : Sys) (rc : Nat × Nat)
    (h : InvW W s) : InvW W (revealWordCell s rc) := by
  unfold revealWordCell
  dsimp only
  repeat' split
  all_goals first
    | exact h
    | exact InvW_transport W s _ (setLetter_words _ _ _ _) rfl rfl rfl rfl h

/-- One revealWord loop body never touches the completion state. -/
theorem frozen_revealWordCell (s : Sys) (rc : Nat × Nat) : FrozenStep s (revealWordCell s rc) := by
  intro hc
  unfold revealWordCell
  dsimp only
  repeat' split
  all_goals exact ⟨hc, rfl⟩

/-- The revealWord loop preserves the completion invariant. -/
theorem InvW_foldl_revealWordCell (W : List Word) (l : List (Nat × Nat)) :
    ∀ s, InvW W s → InvW W (l.foldl revealWordCell s) := by
  induction l with
  | nil => exact fun s h => h
  | cons x xs ih =>
    intro s h
    rw [List.foldl_cons]
    exact ih _ (InvW_revealWordCell W s x h)

/-- The revealWord loop never touches the completion state. -/
theorem frozen_foldl_revealWordCell (l : List (Nat × Nat)) :
    ∀ s, FrozenStep s (l.foldl revealWordCell s) := by
  induction l with
  | nil => exact fun s hc => ⟨hc, rfl⟩
  | cons x xs ih =>
    intro s hc
    rw [List.foldl_cons]
    obtain ⟨h1, h2⟩ := frozen_revealWordCell s x hc
    obtain ⟨h3, h4⟩ := ih (revealWordCell s x) h1
    exact ⟨h3, h4.trans h2⟩

/-- revealWord preserves the completion invariant. -/
theorem InvW_revealWord (W : List Word) (s : Sys) (now : Nat)
    (h : InvW W s) : InvW W (revealWord s now) := by
  unfold revealWord
  dsimp only
  repeat' split
  all_goals first
    | exact h
    | exact InvW_checkWord W _ now _ (InvW_foldl_revealWordCell W _ s h)

/-- revealWord does not unfreeze a completed session. -/
theorem frozen_revealWord (s : Sys) (now : Nat) : FrozenStep s (revealWord s now) := by
  intro hc
  unfold revealWord
  dsimp only
  split
  next => exact ⟨hc, rfl⟩
  next word hword =>
    split
    next => exact ⟨hc, rfl⟩
    next =>
      obtain ⟨h1, h2⟩ := frozen_foldl_revealWordCell word.cells s hc
      obtain ⟨h3, h4⟩ := frozen_checkWord (word.cells.foldl revealWordCell s) now word.id h1
      exact ⟨h3, h4.trans h2⟩

/-- One revealAll loop body preserves the completion invariant. -/
theorem InvW_revealAllCell (W : List Word) (s : Sys) (r c : Nat)
    (h : InvW W s) : InvW W (revealAllCell s r c) := by
  unfold revealAllCell
  dsimp only
  repeat' split
  all_goals first
    | exact h
    | exact InvW_transport W s _ (setLetter_words _ _ _ _) rfl rfl rfl rfl h

/-- One revealAll loop body never touches the completion state. -/
theorem frozen_revealAllCell (s : Sys) (r c : Nat) : FrozenStep s (revealAllCell s r c) := by
  intro hc
  unfold revealAllCell
  dsimp only
  repeat' split
  all_goals exact ⟨hc, rfl⟩

/-- One row of the revealAll sweep preserves the completion invariant. -/
theorem InvW_revealAllRow (W : List Word) (cl : List Nat) (r : Nat) :
    ∀ s, InvW W s → InvW W (cl.foldl (fun acc2 c => revealAllCell acc2 r c) s) := by
  induction cl with
  | nil => exact fun s h => h
  | cons x xs ih =>
    intro s h
    rw [List.foldl_cons]
    exact ih _ (InvW_revealAllCell W s r x h)

/-- One row of the revealAll sweep never touches the completion state. -/
theorem frozen_revealAllRow (cl : List Nat) (r : Nat) :
    ∀ s, FrozenStep s (cl.foldl (fun acc2 c => revealAllCell acc2 r c) s) := by
  induction cl with
  | nil => exact fun s hc => ⟨hc, rfl⟩
  | cons x xs ih =>
    intro s hc
    rw [List.foldl_cons]
    obtain ⟨h1, h2⟩ := frozen_revealAllCell s r x hc
    obtain ⟨h3, h4⟩ := ih (revealAllCell s r x) h1
    exact ⟨h3, h4.trans h2⟩

/-- The full revealAll sweep preserves the completion invariant. -/
theorem InvW_revealAllGrid (W : List Word) (rl cl : List Nat) :
    ∀ s, InvW W s →
      InvW W (rl.foldl (fun acc r => cl.foldl (fun acc2 c => revealAllCell acc2 r c) acc) s) := by
  induction rl with
  | nil => exact fun s h => h
  | cons x xs ih =>
    intro s h
    rw [List.foldl_cons]
    exact ih _ (InvW_revealAllRow W cl x s h)

/-- The full revealAll sweep never touches the completion state. -/
theorem frozen_revealAllGrid (rl cl : List Nat) :
    ∀ s, FrozenStep s
      (rl.foldl (fun acc r => cl.foldl (fun acc2 c => revealAllCell acc2 r c) acc) s) := by
  induction rl with
  | nil => exact fun s hc => ⟨hc, rfl⟩
  | cons x xs ih =>
    intro s hc
    rw [List.foldl_cons]
    obtain ⟨h1, h2⟩ := frozen_revealAllRow cl x s hc
    obtain ⟨h3, h4⟩ := ih _ h1
    exact ⟨h3, h4.trans h2⟩

/-- The revealAll re-validation pass preserves the completion invariant. -/
theorem InvW_checkAllFold (W : List Word) (l : List Nat) (now : Nat) :
    ∀ s, InvW W s →
      InvW W (l.foldl (fun acc i => if i ∈ acc.st.correctWords then acc else checkWord acc now i) s) := by
  induction l with
  | nil => exact fun s h => h
  | cons x xs ih =>
    intro s h
    rw [List.foldl_cons]
    apply ih
    by_cases hmem : x ∈ s.st.correctWords
    · rw [if_pos hmem]
      exact h
    · rw [if_neg hmem]
      exact InvW_checkWord W s now x h

/-- The revealAll re-validation pass does not unfreeze a completed
    session. -/
theorem frozen_checkAllFold (l : List Nat) (now : Nat) :
    ∀ s, FrozenStep s
      (l.foldl (fun acc i => if i ∈ acc.st.correctWords then acc else checkWord acc now i) s) := by
  induction l with
  | nil => exact fun s hc => ⟨hc, rfl⟩
  | cons x xs ih =>
    intro s hc
    rw [List.foldl_cons]
    have hstep : FrozenStep s (if x ∈ s.st.correctWords then s else checkWord s now x) := by
      split_ifs with hm
      · exact fun hc2 => ⟨hc2, rfl⟩
      · exact frozen_checkWord s now x
    obtain ⟨h1, h2⟩ := hstep hc
    obtain ⟨h3, h4⟩ := ih _ h1
    exact ⟨h3, h4.trans h2⟩

/-- revealAll preserves the completion invariant. -/
theorem InvW_revealAll (W : List Word) (s : Sys) (now : Nat)
    (h : InvW W s) : InvW W (revealAll s now) := by
  unfold revealAll
  dsimp only
  exact InvW_checkAllFold W _ now _
    (InvW_revealAllGrid W (List.range s.grid.rows) (List.range s.grid.cols) s h)

/-- revealAll does not unfreeze a completed session. -/
theorem frozen_revealAll (s : Sys) (now : Nat) : FrozenStep s (revealAll s now) := by
  unfold revealAll
  dsimp only
  exact frozenStep_trans s _ _
    (frozen_revealAllGrid (List.range s.grid.rows) (List.range s.grid.cols) s)
    (frozen_checkAllFold _ now _)

/-- handleKeyDown preserves the completion invariant. -/
theorem InvW_handleKeyDown (W : List Word) (s : Sys) (now r c : Nat) (k : Key)
    (h : InvW W s) : InvW W (handleKeyDown s now r c k) := by
  cases k with
  | letter l =>
    exact InvW_setGrid W _ _ (moveToNextCell_words _)
      (InvW_onLetterInput W _ now r c l (InvW_setGrid W s _ (setLetter_words _ _ _ _) h))
  | backspace =>
    unfold handleKeyDown
    dsimp only
    split_ifs with hval
    · exact InvW_onLetterInput W _ now r c "" (InvW_setGrid W s _ (setLetter_words _ _ _ _) h)
    · cases hac : (moveToPrevCell s.grid).activeCell with
      | none => exact InvW_setGrid W s _ (moveToPrevCell_words _) h
      | some rc2 =>
        exact InvW_onLetterInput W _ now rc2.1 rc2.2 ""
          (InvW_setGrid W { s with grid := moveToPrevCell s.grid }
            (setLetter (moveToPrevCell s.grid) rc2.1 rc2.2 "")
            (setLetter_words _ _ _ _)
            (InvW_setGrid W s (moveToPrevCell s.grid) (moveToPrevCell_words _) h))
  | delete =>
    exact InvW_onLetterInput W _ now r c "" (InvW_setGrid W s _ (setLetter_words _ _ _ _) h)

/-- handleKeyDown does not unfreeze a completed session. -/
theorem frozen_handleKeyDown (s : Sys) (now r c : Nat) (k : Key) :
    FrozenStep s (handleKeyDown s now r c k) := by
  cases k with
  | letter l =>
    exact frozenStep_trans s _ _
      (frozenStep_trans s _ _ (frozen_setGrid s (setLetter s.grid r c l))
        (frozen_onLetterInput _ now r c l))
      (frozen_setGrid _ _)
  | backspace =>
    unfold handleKeyDown
    dsimp only
    split_ifs with hval
    · exact frozenStep_trans s _ _ (frozen_setGrid s (setLetter s.grid r c ""))
        (frozen_onLetterInput _ now r c "")
    · cases hac : (moveToPrevCell s.grid).activeCell with
      | none => exact frozen_setGrid s _
      | some rc2 =>
        exact frozenStep_trans s _ _ (frozen_setGrid s (moveToPrevCell s.grid))
          (frozenStep_trans _ _ _ (frozen_setGrid _ _)
            (frozen_onLetterInput _ now rc2.1 rc2.2 ""))
  | delete =>
    exact frozenStep_trans s _ _ (frozen_setGrid s (setLetter s.grid r c ""))
      (frozen_onLetterInput _ now r c "")

/-- One event step preserves the completion invariant. -/
theorem InvW_step (W : List Word) (s : Sys) (te : Nat × Ev)
    (h : InvW W s) : InvW W (step s te) := by
  obtain ⟨t, e⟩ := te
  cases e with
  | key r c k => exact InvW_handleKeyDown W s t r c k h
  | navigate r c d => exact InvW_setGrid W s _ (setActiveCell_words _ _ _ _) h
  | revealL => exact InvW_revealLetter W s t h
  | revealW => exact InvW_revealWord W s t h
  | revealA => exact InvW_revealAll W s t h

/-- One event step does not unfreeze a completed session. -/
theorem frozen_step (s : Sys) (te : Nat × Ev) : FrozenStep s (step s te) := by
  obtain ⟨t, e⟩ := te
  cases e with
  | key r c k => exact frozen_handleKeyDown s t r c k
  | navigate r c d => exact frozen_setGrid s _
  | revealL => exact frozen_revealLetter s t
  | revealW => exact frozen_revealWord s t
  | revealA => exact frozen_revealAll s t

/-- Whole runs preserve the completion invariant. -/
theorem InvW_run (W : List Word) (es : List (Nat × Ev)) :
    ∀ s, InvW W s → InvW W (run s es) := by
  induction es with
  | nil => exact fun s h => h
  | cons x xs ih =>
    intro s h
    show InvW W (run (step s x) xs)
    exact ih _ (InvW_step W s x h)

/-- Whole runs never unfreeze a completed session. -/
theorem frozen_run (es : List (Nat × Ev)) :
    ∀ s, s.st.completed = true →
      (run s es).st.completed = true ∧ (run s es).ev.completions = s.ev.completions := by
  induction es with
  | nil => exact fun s hc => ⟨hc, rfl⟩
  | cons x xs ih =>
    intro s hc
    obtain ⟨h1, h2⟩ := frozen_step s x hc
    obtain ⟨h3, h4⟩ := ih (step s x) h1
    exact ⟨h3, h4.trans h2⟩

/-- Replaying the saved correct words leaves the solving state and the
    completion count alone. -/
theorem foldl_markWordCorrect_st (l : List Nat) :
    ∀ s : Sys, (l.foldl (fun acc i => markWordCorrect acc i false) s).st = s.st ∧
      (l.foldl (fun acc i => markWordCorrect acc i false) s).ev.completions = s.ev.completions := by
  induction l with
  | nil => exact fun s => ⟨rfl, rfl⟩
  | cons x xs ih =>
    intro s
    rw [List.foldl_cons]
    obtain ⟨h1, h2⟩ := ih (markWordCorrect s x false)
    exact ⟨h1.trans (markWordCorrect_st s x false), h2.trans (markWordCorrect_completions s x false)⟩

/-- loadSaved installs the saved solving state wholesale and never fires
    the completion event. -/
theorem loadSaved_st_ev (s : Sys) (sv : Solving) :
    (loadSaved s (some sv)).st = sv ∧
    (loadSaved s (some sv)).ev.completions = s.ev.completions := by
  obtain ⟨h1, h2⟩ := foldl_markWordCorrect_st sv.correctWords
    { s with st := sv,
             grid := sv.gridMap.foldl (fun g kv => setLetter g kv.1.1 kv.1.2 kv.2) s.grid }
  exact ⟨h1, h2⟩

/-- The fresh session over a nonempty word table satisfies the completion
    invariant. -/
theorem InvW_init (g : Grid) (hw : 0 < g.words.length) : InvW g.words (initSys g) := by
  refine ⟨rfl, List.nodup_nil, ?_, ?_, rfl, rfl⟩
  · intro i hi
    cases hi
  · constructor
    · intro hfalse
      cases hfalse
    · intro hlen
      exfalso
      have h0 : ([] : List Nat).length = g.words.length := hlen
      simp only [List.length_nil] at h0
      omega

/-- C2: over any event sequence from a fresh session on a puzzle with at
    least one word, after every prefix of the run the completion event
    (the block that sets the completed flag, records the completion time,
    updates statistics and invokes the completion callback, counted in
    ev.completions) has fired exactly once if the validated-word count
    equals the total word count and has never fired otherwise — so it
    fires exactly once, exactly when the count first reaches the total,
    and never before; and restoring a previously completed saved state
    never fires it again, over any further event sequence. -/
theorem completion_fires_exactly_once (g : Grid) (hw : 0 < g.words.length)
    (es : List (Nat × Ev)) :
    (∀ es1 es2, es = es1 ++ es2 →
      (run (initSys g) es1).grid.words = g.words ∧
      ((run (initSys g) es1).st.completed = true ↔
        (run (initSys g) es1).st.correctWords.length = g.words.length) ∧
      ((run (initSys g) es1).st.completedAt.isSome = (run (initSys g) es1).st.completed) ∧
      (run (initSys g) es1).ev.completions =
        (if (run (initSys g) es1).st.correctWords.length = g.words.length then 1 else 0) ∧
      (run (initSys g) es1).ev.completions ≤ 1) ∧
    (∀ sv : Solving, sv.completed = true →
      (run (loadSaved (initSys g) (some sv)) es).ev.completions = 0) := by
  constructor
  · intro es1 es2 heq
    obtain ⟨hW, hnd, hb, hcomp, hat, hev⟩ := InvW_run g.words es1 (initSys g) (InvW_init g hw)
    have hcompW : (run (initSys g) es1).st.completed = true ↔
        (run (initSys g) es1).st.correctWords.length = g.words.length := by
      rw [← hW]
      exact hcomp
    refine ⟨hW, hcompW, hat, ?_, ?_⟩
    · cases hc : (run (initSys g) es1).st.completed with
      | true =>
        rw [hev, hc, if_pos rfl, if_pos (hcompW.mp hc)]
      | false =>
        have hne : ¬ ((run (initSys g) es1).st.correctWords.length = g.words.length) := by
          intro hlen
          have h2 := hcompW.mpr hlen
          rw [hc] at h2
          simp at h2
        rw [hev, hc]
        simp only [Bool.false_eq_true, if_false]
        rw [if_neg hne]
    · rw [hev]
      split_ifs <;> omega
  · intro sv hsv
    obtain ⟨hst, hev0⟩ := loadSaved_st_ev (initSys g) sv
    obtain ⟨_, h2⟩ := frozen_run es (loadSaved (initSys g) (some sv)) (by rw [hst]; exact hsv)
    rw [h2, hev0]
    rfl

/-- C2 witness: on gEx, typing the two correct letters makes the
    completion count equal the indicator of full validation. -/
theorem completion_fires_exactly_once_witness :
    (run (initSys gEx) evAB).ev.completions =
      (if (run (initSys gEx) evAB).st.correctWords.length = gEx.words.length then 1 else 0) := by
  exact (((completion_fires_exactly_once gEx (by decide) evAB).1 evAB []
    (List.append_nil evAB).symm).2.2.2.1)

end Crosswords
